import Mathlib

/-!
Random password generator `rpg` (src/c/rpg.c).

A shallow embedding of `RandomInt`, `rpg` and the class-defaulting step of `main`.

Modelling conventions.
* A C `char` array is a list of cells; a cell is `none` while it is indeterminate
  (never written) and `some c` once a character has been stored in it.  Reads and
  writes are bounds-checked: an access outside the array, or a read of an
  indeterminate cell, makes the operation return `none` (undefined behaviour in C).
* C `int` values are mathematical integers, checked against the 32-bit range where
  the source does arithmetic on them; a negative array index is out of bounds.
* `double` values are exact rationals, extended by the infinite quotient `1.0/0`.
  Rounding of floating-point arithmetic is not modelled.
* The process-wide generator behind `Random()` is passed explicitly.
-/

namespace Rpg

set_option maxRecDepth 100000

/-! ## Memory model -/

/-- One cell of a C character array; `none` is an indeterminate cell. -/
abbrev Cell := Option Char

/-- The string terminator. -/
def NUL : Char := Char.ofNat 0

/-- Read of cell `i`. -/
def load (a : List Cell) (i : Nat) : Option Char :=
  (a.get? i).join

/-- Write of character `c` to cell `i`. -/
def store (a : List Cell) (i : Nat) (c : Char) : Option (List Cell) :=
  if i < a.length then some (a.set i (some c)) else none

/-- The C string held at the start of an array: the characters before the first
terminator.  Fails when no terminator is met inside the initialised cells. -/
def cstr : List Cell → Option (List Char)
  | [] => none
  | none :: _ => none
  | some c :: rest => if c = NUL then some [] else (cstr rest).map (fun s => c :: s)

/-- Library function `strlen`. -/
def strlen (a : List Cell) : Option Nat :=
  (cstr a).map List.length

/-- Copies the characters of `src`, then a terminator, to the cells from `pos` on. -/
def copyAt (dst : List Cell) (pos : Nat) : List Char → Option (List Cell)
  | [] => store dst pos NUL
  | c :: s => (store dst pos c).bind (fun d => copyAt d (pos + 1) s)

/-- Library function `strcpy`, for a source given by its characters before the terminator. -/
def strcpy (dst : List Cell) (src : List Char) : Option (List Cell) :=
  copyAt dst 0 src

/-- Library function `strcat`, for a source given by its characters before the terminator. -/
def strcat (dst : List Cell) (src : List Char) : Option (List Cell) :=
  (strlen dst).bind (fun k => copyAt dst k src)

/-- The C string a sequence of bytes denotes: the bytes before the first terminator. -/
def strOf (bytes : List Char) : List Char :=
  bytes.takeWhile (fun c => c ≠ NUL)

/-- What `main` prints for the cells `rpg` stored in `buff`: the string they denote. -/
def printed (buff : List Char) : List Char :=
  strOf buff

/-! ## Constants and types of rpg.c -/

/-- Macro `MAX_PW_LENGTH`, defined as 512: the size of the buffer `main` hands to `rpg`. -/
def MAX_PW_LENGTH : Nat := 512

/-- Largest value of a C `int` (32 bits). -/
def INT_MAX : Int := 2147483647

/-- Smallest value of a C `int` (32 bits). -/
def INT_MIN : Int := -2147483648

/-- An `int` result that leaves the 32-bit range is undefined. -/
def checkInt (x : Int) : Option Int :=
  if INT_MIN ≤ x ∧ x ≤ INT_MAX then some x else none

/-- Structure `Flags`. -/
structure Flags where
  digits : Bool
  lower : Bool
  upper : Bool
  special : Bool
  more : Bool
  reduce_confusion : Bool
deriving DecidableEq, Repr

/-! ## The random source -/

/-- Modelled from the spec: the generator behind `Random()` (rngs.c is not part of the
sources).  The spec asks only for `next() -> float in [0,1)`; the state is the sequence
of values the generator is going to yield together with the number of calls made. -/
structure Rng where
  draws : Nat → ℚ
  calls : Nat

/-- Modelled from the spec: `Random()` returns the next value of the source and
advances it by one call. -/
def Random (g : Rng) : ℚ × Rng :=
  (g.draws g.calls, { g with calls := g.calls + 1 })

/-! ## RandomInt (rpg.c lines 44-51) -/

/-- The quotient `1.0/(max - min)`: `none` stands for the infinite value that the
division yields when `max - min` is zero. -/
def RandomInt_delta (d : Int) : Option ℚ :=
  if d = 0 then none else some (1 / (d : ℚ))

/-- The loop test `randInt*delta <= rnum`. -/
def RandomInt_test (delta : Option ℚ) (randInt : Int) (rnum : ℚ) : Bool :=
  match delta with
  | none => false
  | some dl => decide ((randInt : ℚ) * dl ≤ rnum)

/-- The loop `while (randInt*delta <= rnum) randInt++;`.  The first argument counts the
values `randInt` may still take: incrementing it past `INT_MAX` is undefined. -/
def RandomInt_scan (delta : Option ℚ) (rnum : ℚ) : Nat → Int → Option Int
  | 0, _ => none
  | room + 1, randInt =>
    if RandomInt_test delta randInt rnum then RandomInt_scan delta rnum room (randInt + 1)
    else some randInt

/-- Function `RandomInt(min, max)`. -/
def RandomInt (min max : Int) (g : Rng) : Option (Int × Rng) :=
  match checkInt (max - min) with
  | none => none
  | some d =>
    let delta := RandomInt_delta d
    let (rnum, g1) := Random g
    match RandomInt_scan delta rnum INT_MAX.toNat 1 with
    | none => none
    | some randInt =>
      match checkInt ((randInt - 1) + min) with
      | none => none
      | some r => some (r, g1)

/-! ## rpg (rpg.c lines 54-133) -/

/-- Digits, lines 61-70. -/
def rpg_digits (flags : Flags) (st : List Cell × Int) : Option (List Cell × Int) :=
  if flags.digits then
    if flags.reduce_confusion then
      (strcpy st.1 "023456789".toList).map (fun a => (a, st.2 + 9))
    else
      (strcpy st.1 "0123456789".toList).map (fun a => (a, st.2 + 10))
  else some st

/-- Uppercase letters, lines 72-81. -/
def rpg_upper (flags : Flags) (st : List Cell × Int) : Option (List Cell × Int) :=
  if flags.upper then
    if flags.reduce_confusion then
      (strcat st.1 "ABCDEFGHIJKLMNPQRSTUVWXYZ".toList).map (fun a => (a, st.2 + 25))
    else
      (strcat st.1 "ABCDEFGHIJKLMNOPQRSTUVWXYZ".toList).map (fun a => (a, st.2 + 26))
  else some st

/-- Lowercase letters, lines 83-92. -/
def rpg_lower (flags : Flags) (st : List Cell × Int) : Option (List Cell × Int) :=
  if flags.lower then
    if flags.reduce_confusion then
      (strcat st.1 "abcdefghijkmnopqrstuvwxyz".toList).map (fun a => (a, st.2 + 25))
    else
      (strcat st.1 "abcdefghijklmnopqrstuvwxyz".toList).map (fun a => (a, st.2 + 26))
  else some st

/-- Special characters, lines 94-97.  The source spells the percent sign with a
backslash in front of it, which a C compiler reads as the percent sign alone. -/
def rpg_special (flags : Flags) (st : List Cell × Int) : Option (List Cell × Int) :=
  if flags.special then
    (strcat st.1 "_=+!@#$%&*?-".toList).map (fun a => (a, st.2 + 12))
  else some st

/-- More punctuation, lines 99-108.  The escapes are the backtick (60), the vertical
bar (7c), the backslash (5c), the apostrophe (27), the double quote (22) and the two
braces (7b, 7d). -/
def rpg_more (flags : Flags) (st : List Cell × Int) : Option (List Cell × Int) :=
  if flags.more then
    if flags.reduce_confusion then
      (strcat st.1 "\x60^\x5c/~<>\x27\x22,.()\x7b\x7d[];:".toList).map (fun a => (a, st.2 + 19))
    else
      (strcat st.1 "\x60\x7c^\x5c/~<>\x27\x22,.()\x7b\x7d[];:".toList).map (fun a => (a, st.2 + 20))
  else some st

/-- Lines 57-108: the local array `ascii_chars[128]` with its first cell set to the
terminator, `ascii_chars_len = 0`, then the five class blocks in source order.
The result is the array and `ascii_chars_len`. -/
def rpg_classes (flags : Flags) : Option (List Cell × Int) :=
  (store (List.replicate 128 none) 0 NUL).bind fun a =>
  (rpg_digits flags (a, 0)).bind fun st =>
  (rpg_upper flags st).bind fun st =>
  (rpg_lower flags st).bind fun st =>
  (rpg_special flags st).bind fun st =>
  rpg_more flags st

/-- The inner loop of lines 116-119 and the store of line 120, for one forbidden
character.  The first argument bounds the number of iterations; `rpg_pass` starts it
at a value the read pointer cannot outlast. -/
def rpg_pass_loop (fchar : Char) : Nat → List Cell → Nat → Nat → Option (List Cell)
  | 0, _, _, _ => none
  | fuel + 1, a, pread, pwrite =>
    match load a pread with
    | none => none
    | some c =>
      if c = NUL then store a pwrite NUL
      else
        match store a pwrite c with
        | none => none
        | some a1 =>
          match load a1 pwrite with
          | none => none
          | some w =>
            rpg_pass_loop fchar fuel a1 (pread + 1) (if w ≠ fchar then pwrite + 1 else pwrite)

/-- Lines 115-120: one removal pass, both pointers starting at cell 0. -/
def rpg_pass (fchar : Char) (a : List Cell) : Option (List Cell) :=
  rpg_pass_loop fchar (a.length + 1) a 0 0

/-- Lines 112-122: the loop over the forbidden string, which stops at its terminator
(an embedded NUL, or the end of the list). -/
def rpg_remove (a : List Cell) : List Char → Option (List Cell)
  | [] => some a
  | fchar :: rest =>
    if fchar = NUL then some a
    else (rpg_pass fchar a).bind (fun a1 => rpg_remove a1 rest)

/-- Lines 126-130: the loop `for (i = 0; i < n; i++)`, run for the given number of
iterations; the result lists the characters stored in `buff[i]`, in order. -/
def rpg_fill (ascii_chars : List Cell) (ascii_chars_len : Int) : Nat → Rng → Option (List Char × Rng)
  | 0, g => some ([], g)
  | k + 1, g =>
    match RandomInt 0 ascii_chars_len g with
    | none => none
    | some (idx, g1) =>
      if idx < 0 then none
      else
        match load ascii_chars idx.toNat with
        | none => none
        | some c =>
          match rpg_fill ascii_chars ascii_chars_len k g1 with
          | none => none
          | some (rest, g2) => some (c :: rest, g2)

/-- Function `rpg(n, buff, flags, forbidden)`.  `buff` is only written: the result
lists the cells `buff[0]`, ..., `buff[i]` that `rpg` stores, the last one being the
terminator of line 131, together with the state of the random source afterwards.
`forbidden` is given by its characters. -/
def rpg (n : Int) (flags : Flags) (forbidden : List Char) (g : Rng) : Option (List Char × Rng) :=
  (rpg_classes flags).bind fun st =>
  (rpg_remove st.1 forbidden).bind fun ascii_chars =>
  (rpg_fill ascii_chars st.2 n.toNat g).bind fun r =>
  some (r.1 ++ [NUL], r.2)

/-! ## main (rpg.c lines 193-217) -/

/-- The class-defaulting step of `main`: "If no characters were specified, use all of
them." -/
def main_defaults (flags : Flags) : Flags :=
  if !(flags.digits || flags.lower || flags.upper || flags.special || flags.more) then
    { flags with digits := true, lower := true, upper := true, special := true, more := true }
  else flags

/-- The stores `buff[i] = ...` of `rpg` carried out on the array of the caller: the
characters that `rpg` writes are put, in order, into the cells from `i` on, every store
being bounds-checked. -/
def storeAll (buff : List Cell) (i : Nat) : List Char → Option (List Cell)
  | [] => some buff
  | c :: rest => (store buff i c).bind (fun b => storeAll b (i + 1) rest)

/-- Lines 193-217 of `main`, after the parsing of the arguments: the defaulting step, the
one discarded call of `Random` (line 212), the array `char buff[MAX_PW_LENGTH]` and the
call `rpg(n, buff, flags, f)`.  The result is the array and the random source afterwards;
it is `none` when a store of `rpg` falls outside the array. -/
def main_generate (n : Int) (flags : Flags) (f : List Char) (g : Rng) : Option (List Cell × Rng) :=
  (rpg n (main_defaults flags) f (Random g).2).bind fun r =>
    (storeAll (List.replicate MAX_PW_LENGTH none) 0 r.1).map fun buff => (buff, r.2)


/-! ## The alphabet as the specification words it -/

/-- The five character classes of the specification. -/
inductive CharClass where
  | digits
  | uppercase
  | lowercase
  | special
  | extended
deriving DecidableEq, Repr

/-- Specification table, column "Normal". -/
def spec_normal : CharClass → List Char
  | .digits => "0123456789".toList
  | .uppercase => "ABCDEFGHIJKLMNOPQRSTUVWXYZ".toList
  | .lowercase => "abcdefghijklmnopqrstuvwxyz".toList
  | .special => "_=+!@#$%&*?-".toList
  | .extended => "\x60\x7c^\x5c/~<>\x27\x22,.()\x7b\x7d[];:".toList

/-- Specification table, column "Reduce-confusion variant": the glyph each class drops. -/
def spec_dropped : CharClass → List Char
  | .digits => ['1']
  | .uppercase => ['O']
  | .lowercase => ['l']
  | .special => []
  | .extended => ['|']

/-- The literal of a class: the normal one, or the variant without the dropped glyph. -/
def spec_literal (reduce : Bool) (k : CharClass) : List Char :=
  if reduce then (spec_normal k).filter (fun c => c ∉ spec_dropped k) else spec_normal k

/-- Specification table, the lengths in parentheses. -/
def spec_length (reduce : Bool) : CharClass → Nat
  | .digits => if reduce then 9 else 10
  | .uppercase => if reduce then 25 else 26
  | .lowercase => if reduce then 25 else 26
  | .special => 12
  | .extended => if reduce then 19 else 20

/-- The class flag of `struct Flags` that selects a class. -/
def selected (flags : Flags) : CharClass → Bool
  | .digits => flags.digits
  | .uppercase => flags.upper
  | .lowercase => flags.lower
  | .special => flags.special
  | .extended => flags.more

/-- The fixed order of the specification: digits, uppercase, lowercase, special, extended. -/
def spec_order : List CharClass :=
  [.digits, .uppercase, .lowercase, .special, .extended]

/-- The literal of a class when it is selected, nothing otherwise. -/
def spec_part (flags : Flags) (k : CharClass) : List Char :=
  if selected flags k then spec_literal flags.reduce_confusion k else []

/-- The concatenation, in the fixed order, of the literal of every selected class. -/
def spec_alphabet (flags : Flags) : List Char :=
  ((spec_order.filter (selected flags)).map (spec_literal flags.reduce_confusion)).foldr (fun l acc => l ++ acc) []

/-- The sum of the literal lengths of the selected classes. -/
def spec_total (flags : Flags) : Nat :=
  ((spec_order.filter (selected flags)).map (spec_length flags.reduce_confusion)).foldr (fun l acc => l + acc) 0

/-! ## Views of the state of rpg, and predicates used in the proofs -/

/-- Every value the source yields lies in the interval [0,1). -/
def UnitDraws (g : Rng) : Prop :=
  ∀ i, 0 ≤ g.draws i ∧ g.draws i < 1

/-- The source after `k` further calls of `Random`. -/
def Rng.advance (g : Rng) (k : Nat) : Rng :=
  { g with calls := g.calls + k }

/-- The index that the `i`-th call of `RandomInt(0, len)` made from state `g` selects. -/
def drawIndex (len : Int) (g : Rng) (i : Nat) : Nat :=
  ⌊g.draws (g.calls + i) * (len : ℚ)⌋.toNat

/-- The string in `ascii_chars` after the class blocks (line 108). -/
def rpg_alphabet_before (flags : Flags) : Option (List Char) :=
  (rpg_classes flags).bind fun st => cstr st.1

/-- The value of `ascii_chars_len`, the bound that line 128 samples under. -/
def rpg_alphabet_len (flags : Flags) : Option Int :=
  (rpg_classes flags).map fun st => st.2

/-- The string in `ascii_chars` after the removal loop (line 122): the alphabet. -/
def rpg_alphabet (flags : Flags) (forbidden : List Char) : Option (List Char) :=
  (rpg_classes flags).bind fun st => (rpg_remove st.1 forbidden).bind cstr

/-- The array `a` holds the string `s`: its cells start with the characters of `s`,
followed by a terminator. -/
def Holds (a : List Cell) (s : List Char) : Prop :=
  NUL ∉ s ∧ ∃ r, a = s.map some ++ some NUL :: r

/-- State of the class blocks: the array holds `s` and `ascii_chars_len` is its length. -/
def ClassInv (st : List Cell × Int) (s : List Char) : Prop :=
  Holds st.1 s ∧ st.2 = (s.length : Int) ∧ st.1.length = 128

/-- The alphabet with all five classes selected. -/
def fullAlphabet (rc : Bool) : List Char :=
  spec_literal rc .digits ++ spec_literal rc .uppercase ++ spec_literal rc .lowercase
    ++ spec_literal rc .special ++ spec_literal rc .extended

/-- The alphabet that remains of the selected classes once the forbidden characters are
taken out. -/
def finalAlphabet (flags : Flags) (forbidden : List Char) : List Char :=
  (spec_alphabet flags).filter (fun c => c ∉ strOf forbidden)

/-- Cells `k` to `L` of the array all hold the terminator. -/
def NulTail (a : List Cell) (k L : Nat) : Prop :=
  ∀ j, k ≤ j → j ≤ L → load a j = some NUL

/-- The single-pass filter of the specification: it keeps, in their order, the characters
of `chars` that do not occur in the forbidden string. -/
def spec_single_pass (chars forbidden : List Char) : List Char :=
  chars.filter (fun c => c ∉ strOf forbidden)

/-- The selection with the reduce-confusion flag set to `rc`. -/
def withReduce (flags : Flags) (rc : Bool) : Flags :=
  { flags with reduce_confusion := rc }

/-! ## Example inputs -/

/-- Example selection: digits only, reduce-confusion off. -/
def digitsOnly : Flags :=
  { digits := true, lower := false, upper := false, special := false, more := false,
    reduce_confusion := false }

/-- Example selection: all five classes, with the given reduce-confusion flag. -/
def allClasses (rc : Bool) : Flags :=
  { digits := true, lower := true, upper := true, special := true, more := true,
    reduce_confusion := rc }

/-- Example source: every call yields `u`. -/
def constRng (u : ℚ) : Rng :=
  { draws := fun _ => u, calls := 0 }

/-- Example source: the calls yield the values of `l` in order, then zero. -/
def listRng (l : List ℚ) : Rng :=
  { draws := fun i => l.getD i 0, calls := 0 }

/-- Example selection: one class alone, with the given reduce-confusion flag. -/
def onlyClass (k : CharClass) (rc : Bool) : Flags :=
  { digits := decide (k = CharClass.digits), lower := decide (k = CharClass.lowercase),
    upper := decide (k = CharClass.uppercase), special := decide (k = CharClass.special),
    more := decide (k = CharClass.extended), reduce_confusion := rc }

/-- Example selection: digits and uppercase with reduce-confusion. -/
def digitsUpperReduced : Flags :=
  { digits := true, lower := false, upper := true, special := false, more := false,
    reduce_confusion := true }

/-- Example record: no class set; `main` replaces it by all five classes before it calls
`rpg`. -/
def noClass : Flags :=
  { digits := false, lower := false, upper := false, special := false, more := false,
    reduce_confusion := false }

/-- Cells of `ascii_chars` for digits only, after the class blocks. -/
def digitCells : List Cell :=
  "0123456789".toList.map some ++ some NUL :: List.replicate 117 none

/-! ## Lemmas: memory -/

theorem load_append (f X : List Cell) (d : Nat) : load (f ++ X) (f.length + d) = load X d := by
  simp [load, List.getElem?_append_right]

theorem store_append (f : List Cell) (x : Cell) (X : List Cell) (c : Char) :
    store (f ++ x :: X) f.length c = some (f ++ some c :: X) := by
  simp [store]

theorem cstr_cells (s : List Char) (r : List Cell) (hs : NUL ∉ s) :
    cstr (s.map some ++ some NUL :: r) = some s := by
  induction s with
  | nil => simp [cstr]
  | cons c s ih =>
    have hc : c ≠ NUL := fun h => hs (by simp [h])
    have hs2 : NUL ∉ s := fun h => hs (by simp [h])
    simp [cstr, hc, ih hs2]

theorem copyAt_cells (t : List Char) : ∀ (f X : List Cell), t.length < X.length →
    copyAt (f ++ X) f.length t = some (f ++ t.map some ++ some NUL :: X.drop (t.length + 1)) := by
  induction t with
  | nil =>
    intro f X h
    cases X with
    | nil => simp at h
    | cons x X => simp [copyAt, store_append]
  | cons c t ih =>
    intro f X h
    cases X with
    | nil => simp at h
    | cons x X =>
      have h2 : t.length < X.length := by simpa using h
      have := ih (f ++ [some c]) X h2
      simp only [List.length_append, List.length_singleton, List.append_assoc, List.singleton_append] at this
      simp [copyAt, store_append, this]

/-! ## Lemmas: one removal pass -/

theorem pass_loop_cells (fc : Char) (t : List Char) :
    ∀ (fuel : Nat) (f X : List Cell) (d : Nat) (r : List Cell), NUL ∉ t →
      X.drop d = t.map some ++ some NUL :: r → t.length < fuel →
      rpg_pass_loop fc fuel (f ++ X) (f.length + d) f.length
        = some (f ++ (t.filter (fun c => c ≠ fc)).map some
            ++ some NUL :: X.drop ((t.filter (fun c => c ≠ fc)).length + 1)) := by
  induction t with
  | nil =>
    intro fuel f X d r _ hX hfuel
    obtain ⟨fuel, rfl⟩ : ∃ k, fuel = k + 1 := ⟨fuel - 1, by omega⟩
    have hld : load X d = some NUL := by
      have : X[d]? = (X.drop d)[0]? := by simp
      simp [load, this, hX]
    cases X with
    | nil => simp at hX
    | cons x X => simp [rpg_pass_loop, load_append, hld, store_append]
  | cons c t ih =>
    intro fuel f X d r hnul hX hfuel
    obtain ⟨fuel, rfl⟩ : ∃ k, fuel = k + 1 := ⟨fuel - 1, by omega⟩
    have hc : c ≠ NUL := fun h => hnul (by simp [h])
    have ht : NUL ∉ t := fun h => hnul (by simp [h])
    have hfuel2 : t.length < fuel := by simpa using hfuel
    have hld : load X d = some c := by
      have : X[d]? = (X.drop d)[0]? := by simp
      simp [load, this, hX]
    have hdrop : X.drop (d + 1) = t.map some ++ some NUL :: r := by
      have : X.drop (d + 1) = (X.drop d).drop 1 := by simp [List.drop_drop, Nat.add_comm]
      rw [this, hX]; simp
    cases X with
    | nil => simp at hX
    | cons x X =>
      have hback : load (f ++ some c :: X) f.length = some c := by
        have := load_append f (some c :: X) 0
        simpa [load] using this
      by_cases hcf : c = fc
      · have h1 := ih fuel f (some c :: X) (d + 1) r ht (by simpa using hdrop) hfuel2
        simp only [rpg_pass_loop, load_append, hld, hc, if_false, store_append, hback]
        simp [hcf] at h1 ⊢
        exact h1
      · have h1 := ih fuel (f ++ [some c]) X d r ht (by simpa using hdrop) hfuel2
        simp only [rpg_pass_loop, load_append, hld, hc, if_false, store_append, hback]
        simp [hcf] at h1 ⊢
        have e : f.length + 1 + d = f.length + d + 1 := by omega
        rw [e] at h1
        exact h1


theorem pass_cells (fc : Char) (s : List Char) (r : List Cell) (hs : NUL ∉ s) :
    rpg_pass fc (s.map some ++ some NUL :: r)
      = some ((s.filter (fun c => c ≠ fc)).map some
          ++ some NUL :: (s.map some ++ some NUL :: r).drop ((s.filter (fun c => c ≠ fc)).length + 1)) := by
  have h := pass_loop_cells fc s ((s.map some ++ some NUL :: r).length + 1) []
    (s.map some ++ some NUL :: r) 0 r hs (by simp) (by simp; omega)
  simpa [rpg_pass] using h

theorem Holds.cstr_eq {a : List Cell} {s : List Char} (h : Holds a s) : cstr a = some s := by
  obtain ⟨hs, r, rfl⟩ := h
  exact cstr_cells s r hs

theorem load_cells_lt (s : List Char) (r : List Cell) (j : Nat) (hj : j < s.length) :
    load (s.map some ++ r) j = s[j]? := by
  simp [load, List.getElem?_append_left, hj]

theorem pass_holds (fc : Char) {a : List Cell} {s : List Char} (h : Holds a s) :
    ∃ a1, rpg_pass fc a = some a1 ∧ Holds a1 (s.filter (fun c => c ≠ fc)) ∧
      a1.length = a.length ∧ ∀ j, (load a j).isSome → (load a1 j).isSome := by
  obtain ⟨hs, r, rfl⟩ := h
  refine ⟨_, pass_cells fc s r hs, ⟨?_, _, rfl⟩, ?_, ?_⟩
  · intro hmem
    exact hs (List.mem_of_mem_filter hmem)
  · have hk : (s.filter (fun c => c ≠ fc)).length ≤ s.length := List.length_filter_le _ _
    simp only [List.length_append, List.length_map, List.length_cons, List.length_drop]
    omega
  · intro j hj
    have hk : (s.filter (fun c => c ≠ fc)).length ≤ s.length := List.length_filter_le _ _
    rcases Nat.lt_trichotomy j (s.filter (fun c => c ≠ fc)).length with hlt | heq | hgt
    · rw [load_cells_lt _ _ _ hlt, List.getElem?_eq_getElem hlt]
      rfl
    · have := load_append ((s.filter (fun c => c ≠ fc)).map some)
        (some NUL :: (s.map some ++ some NUL :: r).drop ((s.filter (fun c => c ≠ fc)).length + 1)) 0
      simp only [List.length_map, Nat.add_zero] at this
      rw [heq, this]
      simp [load]
    · obtain ⟨e, rfl⟩ : ∃ e, j = (s.filter (fun c => c ≠ fc)).length + 1 + e := ⟨j - ((s.filter (fun c => c ≠ fc)).length + 1), by omega⟩
      have := load_append ((s.filter (fun c => c ≠ fc)).map some ++ [some NUL])
        ((s.map some ++ some NUL :: r).drop ((s.filter (fun c => c ≠ fc)).length + 1)) e
      simp only [List.length_map, List.length_append, List.length_singleton, List.append_assoc, List.singleton_append] at this
      rw [this]
      simpa [load, Nat.add_comm, Nat.add_left_comm, Nat.add_assoc] using hj

theorem strOf_cons (c : Char) (l : List Char) (hc : c ≠ NUL) : strOf (c :: l) = c :: strOf l := by
  simp [strOf, hc]

theorem remove_holds (f : List Char) : ∀ {a : List Cell} {s : List Char}, Holds a s →
    ∃ a1, rpg_remove a f = some a1 ∧ Holds a1 (s.filter (fun c => c ∉ strOf f)) ∧
      a1.length = a.length ∧ ∀ j, (load a j).isSome → (load a1 j).isSome := by
  induction f with
  | nil =>
    intro a s h
    exact ⟨a, rfl, by simpa [strOf] using h, rfl, fun _ hj => hj⟩
  | cons fc rest ih =>
    intro a s h
    by_cases hfc : fc = NUL
    · refine ⟨a, by simp [rpg_remove, hfc], ?_, rfl, fun _ hj => hj⟩
      simpa [strOf, hfc] using h
    · obtain ⟨a1, e1, h1, l1, c1⟩ := pass_holds fc h
      obtain ⟨a2, e2, h2, l2, c2⟩ := ih h1
      refine ⟨a2, by simp [rpg_remove, hfc, e1, e2], ?_, by omega, fun j hj => c2 j (c1 j hj)⟩
      have : (s.filter (fun c => c ≠ fc)).filter (fun c => c ∉ strOf rest)
          = s.filter (fun c => c ∉ strOf (fc :: rest)) := by
        rw [List.filter_filter, strOf_cons _ _ hfc]
        congr 1
        funext c
        simp [Bool.and_comm]
      rw [← this]
      exact h2

/-! ## Lemmas: the class blocks -/

theorem strcpy_holds (a : List Cell) (t : List Char) (ht : NUL ∉ t) (hlen : t.length < a.length) :
    ∃ a1, strcpy a t = some a1 ∧ Holds a1 t ∧ a1.length = a.length := by
  have h := copyAt_cells t [] a hlen
  simp only [List.length_nil, List.nil_append] at h
  refine ⟨_, h, ⟨ht, _, rfl⟩, ?_⟩
  simp only [List.length_append, List.length_map, List.length_cons, List.length_drop]
  omega

theorem strcat_holds {a : List Cell} {s : List Char} (t : List Char) (h : Holds a s)
    (ht : NUL ∉ t) (hlen : s.length + t.length < a.length) :
    ∃ a1, strcat a t = some a1 ∧ Holds a1 (s ++ t) ∧ a1.length = a.length := by
  obtain ⟨hs, r, rfl⟩ := h
  have hlen2 : t.length < (some NUL :: r).length := by
    simp only [List.length_append, List.length_map, List.length_cons] at hlen ⊢
    omega
  have h := copyAt_cells t (s.map some) (some NUL :: r) hlen2
  simp only [List.length_map] at h
  refine ⟨s.map some ++ t.map some ++ some NUL :: (some NUL :: r).drop (t.length + 1),
    ?_, ⟨?_, (some NUL :: r).drop (t.length + 1), ?_⟩, ?_⟩
  · simp only [strcat, strlen, cstr_cells s r hs, Option.map_some', Option.some_bind]
    exact h
  · intro hm
    rcases List.mem_append.1 hm with h1 | h1
    · exact hs h1
    · exact ht h1
  · simp only [List.map_append]
  · simp only [List.length_append, List.length_map, List.length_cons, List.length_drop] at hlen2 ⊢
    omega

theorem strcat_step {st : List Cell × Int} {s : List Char} (t : List Char) (k : Int)
    (h : ClassInv st s) (ht : NUL ∉ t) (hk : k = (t.length : Int)) (hlen : s.length + t.length < 128) :
    ∃ st1, (strcat st.1 t).map (fun a => (a, st.2 + k)) = some st1 ∧ ClassInv st1 (s ++ t) := by
  obtain ⟨h1, h2, h3⟩ := h
  obtain ⟨a1, e1, g1, l1⟩ := strcat_holds t h1 ht (by omega)
  refine ⟨(a1, st.2 + k), by simp [e1], g1, ?_, by simpa [l1] using h3⟩
  simp [h2, hk]

theorem spec_part_length_le (flags : Flags) (k : CharClass) :
    (spec_part flags k).length ≤ (spec_normal k).length := by
  unfold spec_part spec_literal
  split
  · split
    · exact List.length_filter_le _ _
    · exact Nat.le_refl _
  · simp

theorem digits_step (flags : Flags) (a : List Cell) (ha : Holds a []) (hl : a.length = 128) :
    ∃ st, rpg_digits flags (a, 0) = some st ∧ ClassInv st (spec_part flags .digits) := by
  rcases flags with ⟨d, l, u, sp, m, rc⟩
  cases d
  · exact ⟨(a, 0), rfl, ha, rfl, hl⟩
  · cases rc
    · obtain ⟨a1, e1, g1, l1⟩ := strcpy_holds a "0123456789".toList (by decide) (by rw [hl]; decide)
      refine ⟨(a1, 0 + 10), ?_, g1, (by show ((0 : Int) + 10) = ((10 : Nat) : Int); rfl), by show a1.length = 128; omega⟩
      show (strcpy a "0123456789".toList).map (fun a => (a, (0 : Int) + 10)) = some (a1, 0 + 10)
      rw [e1]; rfl
    · obtain ⟨a1, e1, g1, l1⟩ := strcpy_holds a "023456789".toList (by decide) (by rw [hl]; decide)
      refine ⟨(a1, 0 + 9), ?_, g1, (by show ((0 : Int) + 9) = ((9 : Nat) : Int); rfl), by show a1.length = 128; omega⟩
      show (strcpy a "023456789".toList).map (fun a => (a, (0 : Int) + 9)) = some (a1, 0 + 9)
      rw [e1]; rfl

theorem upper_step (flags : Flags) {st : List Cell × Int} {s : List Char} (h : ClassInv st s)
    (hb : s.length ≤ 10) :
    ∃ st1, rpg_upper flags st = some st1 ∧ ClassInv st1 (s ++ spec_part flags .uppercase) := by
  rcases flags with ⟨d, l, u, sp, m, rc⟩
  cases u
  · exact ⟨st, rfl, by simpa [spec_part, selected] using h⟩
  · cases rc
    · exact strcat_step "ABCDEFGHIJKLMNOPQRSTUVWXYZ".toList 26 h (by decide) rfl
        (by have : "ABCDEFGHIJKLMNOPQRSTUVWXYZ".toList.length = 26 := rfl
            omega)
    · exact strcat_step "ABCDEFGHIJKLMNPQRSTUVWXYZ".toList 25 h (by decide) rfl
        (by have : "ABCDEFGHIJKLMNPQRSTUVWXYZ".toList.length = 25 := rfl
            omega)

theorem lower_step (flags : Flags) {st : List Cell × Int} {s : List Char} (h : ClassInv st s)
    (hb : s.length ≤ 36) :
    ∃ st1, rpg_lower flags st = some st1 ∧ ClassInv st1 (s ++ spec_part flags .lowercase) := by
  rcases flags with ⟨d, l, u, sp, m, rc⟩
  cases l
  · exact ⟨st, rfl, by simpa [spec_part, selected] using h⟩
  · cases rc
    · exact strcat_step "abcdefghijklmnopqrstuvwxyz".toList 26 h (by decide) rfl
        (by have : "abcdefghijklmnopqrstuvwxyz".toList.length = 26 := rfl
            omega)
    · exact strcat_step "abcdefghijkmnopqrstuvwxyz".toList 25 h (by decide) rfl
        (by have : "abcdefghijkmnopqrstuvwxyz".toList.length = 25 := rfl
            omega)

theorem special_step (flags : Flags) {st : List Cell × Int} {s : List Char} (h : ClassInv st s)
    (hb : s.length ≤ 62) :
    ∃ st1, rpg_special flags st = some st1 ∧ ClassInv st1 (s ++ spec_part flags .special) := by
  rcases flags with ⟨d, l, u, sp, m, rc⟩
  cases sp
  · exact ⟨st, rfl, by simpa [spec_part, selected] using h⟩
  · cases rc
    · exact strcat_step "_=+!@#$%&*?-".toList 12 h (by decide) rfl
        (by have : "_=+!@#$%&*?-".toList.length = 12 := rfl
            omega)
    · exact strcat_step "_=+!@#$%&*?-".toList 12 h (by decide) rfl
        (by have : "_=+!@#$%&*?-".toList.length = 12 := rfl
            omega)

theorem more_step (flags : Flags) {st : List Cell × Int} {s : List Char} (h : ClassInv st s)
    (hb : s.length ≤ 74) :
    ∃ st1, rpg_more flags st = some st1 ∧ ClassInv st1 (s ++ spec_part flags .extended) := by
  rcases flags with ⟨d, l, u, sp, m, rc⟩
  cases m
  · exact ⟨st, rfl, by simpa [spec_part, selected] using h⟩
  · cases rc
    · exact strcat_step "\x60\x7c^\x5c/~<>\x27\x22,.()\x7b\x7d[];:".toList 20 h (by decide) rfl
        (by have : "\x60\x7c^\x5c/~<>\x27\x22,.()\x7b\x7d[];:".toList.length = 20 := rfl
            omega)
    · exact strcat_step "\x60^\x5c/~<>\x27\x22,.()\x7b\x7d[];:".toList 19 h (by decide) rfl
        (by have : "\x60^\x5c/~<>\x27\x22,.()\x7b\x7d[];:".toList.length = 19 := rfl
            omega)

theorem spec_alphabet_parts (flags : Flags) :
    spec_alphabet flags = spec_part flags .digits ++ spec_part flags .uppercase
      ++ spec_part flags .lowercase ++ spec_part flags .special ++ spec_part flags .extended := by
  rcases flags with ⟨_|_, _|_, _|_, _|_, _|_, rc⟩ <;>
    simp [spec_alphabet, spec_part, spec_order, selected]

theorem classes_holds (flags : Flags) :
    ∃ a, rpg_classes flags = some (a, ((spec_alphabet flags).length : Int)) ∧
      Holds a (spec_alphabet flags) ∧ a.length = 128 := by
  have hd := spec_part_length_le flags .digits
  have hu := spec_part_length_le flags .uppercase
  have hl := spec_part_length_le flags .lowercase
  have hs := spec_part_length_le flags .special
  have e1 : (spec_normal .digits).length = 10 := rfl
  have e2 : (spec_normal .uppercase).length = 26 := rfl
  have e3 : (spec_normal .lowercase).length = 26 := rfl
  have e4 : (spec_normal .special).length = 12 := rfl
  have h0 : store (List.replicate 128 none) 0 NUL = some (some NUL :: List.replicate 127 none) := by
    rw [show (128 : Nat) = 127 + 1 from rfl, List.replicate_succ]
    simp [store]
  obtain ⟨st1, q1, i1⟩ := digits_step flags (some NUL :: List.replicate 127 none)
    ⟨by simp, _, rfl⟩ (by simp)
  obtain ⟨st2, q2, i2⟩ := upper_step flags i1 (by omega)
  obtain ⟨st3, q3, i3⟩ := lower_step flags i2 (by simp only [List.length_append]; omega)
  obtain ⟨st4, q4, i4⟩ := special_step flags i3 (by simp only [List.length_append]; omega)
  obtain ⟨st5, q5, i5⟩ := more_step flags i4 (by simp only [List.length_append]; omega)
  rw [← spec_alphabet_parts] at i5
  obtain ⟨a, len⟩ := st5
  obtain ⟨g1, g2, g3⟩ := i5
  simp only at g1 g2 g3
  subst g2
  exact ⟨a, by simp only [rpg_classes, h0, Option.some_bind, q1, q2, q3, q4, q5], g1, g3⟩

/-! ## Lemmas: the concatenated classes -/

theorem spec_part_sublist (flags : Flags) (k : CharClass) :
    (spec_part flags k).Sublist (spec_literal flags.reduce_confusion k) := by
  unfold spec_part
  split
  · exact List.Sublist.refl _
  · exact List.nil_sublist _

theorem spec_alphabet_sublist (flags : Flags) :
    (spec_alphabet flags).Sublist (fullAlphabet flags.reduce_confusion) := by
  rw [spec_alphabet_parts]
  exact ((((spec_part_sublist flags _).append (spec_part_sublist flags _)).append
    (spec_part_sublist flags _)).append (spec_part_sublist flags _)).append (spec_part_sublist flags _)

theorem fullAlphabet_nodup (rc : Bool) : (fullAlphabet rc).Nodup := by
  cases rc <;> decide

theorem fullAlphabet_facts (rc : Bool) : NUL ∉ fullAlphabet rc ∧ (fullAlphabet rc).length ≤ 94 := by
  cases rc <;> decide

theorem fullAlphabet_reduced : ∀ c ∈ ['1', 'O', 'l', '|'], c ∉ fullAlphabet true := by
  decide

theorem spec_alphabet_nodup (flags : Flags) : (spec_alphabet flags).Nodup :=
  (spec_alphabet_sublist flags).nodup (fullAlphabet_nodup _)

theorem spec_alphabet_no_nul (flags : Flags) : NUL ∉ spec_alphabet flags :=
  fun h => (fullAlphabet_facts _).1 ((spec_alphabet_sublist flags).subset h)

theorem spec_alphabet_length_le (flags : Flags) : (spec_alphabet flags).length ≤ 94 :=
  Nat.le_trans (spec_alphabet_sublist flags).length_le (fullAlphabet_facts _).2

theorem spec_part_length (flags : Flags) (k : CharClass) :
    (spec_part flags k).length = if selected flags k then spec_length flags.reduce_confusion k else 0 := by
  unfold spec_part
  split
  · cases flags.reduce_confusion <;> cases k <;> rfl
  · rfl

theorem spec_alphabet_length (flags : Flags) : (spec_alphabet flags).length = spec_total flags := by
  rw [spec_alphabet_parts]
  simp only [List.length_append, spec_part_length]
  rcases flags with ⟨_|_, _|_, _|_, _|_, _|_, rc⟩ <;>
    simp [spec_total, spec_order, selected] <;> omega

/-! ## Lemmas: RandomInt -/

theorem scan_floor (d : Int) (hd : 0 < d) (u : ℚ) :
    ∀ (room : Nat) (r : Int), r ≤ ⌊u * d⌋ + 1 → (⌊u * d⌋ + 1 - r).toNat < room →
      RandomInt_scan (some (1 / (d : ℚ))) u room r = some (⌊u * d⌋ + 1) := by
  have hdq : (0 : ℚ) < (d : ℚ) := by exact_mod_cast hd
  have htest : ∀ r : Int, RandomInt_test (some (1 / (d : ℚ))) r u = decide (r ≤ ⌊u * d⌋) := by
    intro r
    simp only [RandomInt_test]
    congr 1
    rw [Int.le_floor, mul_one_div, div_le_iff₀ hdq]
  intro room
  induction room with
  | zero => intro r _ h; omega
  | succ room ih =>
    intro r hr hroom
    rw [RandomInt_scan, htest]
    by_cases hk : r ≤ ⌊u * d⌋
    · simp only [hk, decide_True, if_true]
      exact ih (r + 1) (by omega) (by omega)
    · simp only [hk, decide_False, Bool.false_eq_true, if_false]
      congr 1
      omega

theorem floor_bounds (d : Int) (hd : 0 ≤ d) (u : ℚ) (h0 : 0 ≤ u) (h1 : u < 1) :
    0 ≤ ⌊u * d⌋ ∧ (⌊u * d⌋ < d ∨ d = 0) := by
  have hdq : (0 : ℚ) ≤ (d : ℚ) := by exact_mod_cast hd
  refine ⟨Int.floor_nonneg.2 (mul_nonneg h0 hdq), ?_⟩
  rcases eq_or_lt_of_le hd with h | h
  · exact Or.inr h.symm
  · left
    have hdq2 : (0 : ℚ) < (d : ℚ) := by exact_mod_cast h
    rw [Int.floor_lt]
    calc u * d < 1 * d := by exact mul_lt_mul_of_pos_right h1 hdq2
      _ = d := one_mul _

theorem RandomInt_floor (min max : Int) (g : Rng) (hle : min ≤ max) (hmin : INT_MIN ≤ min)
    (hmax : max ≤ INT_MAX) (hd : max - min ≤ INT_MAX)
    (h0 : 0 ≤ g.draws g.calls) (h1 : g.draws g.calls < 1) :
    RandomInt min max g
      = some (min + ⌊g.draws g.calls * ((max - min : Int) : ℚ)⌋, { g with calls := g.calls + 1 }) := by
  have hb := floor_bounds (max - min) (by omega) (g.draws g.calls) h0 h1
  have hI : INT_MAX = 2147483647 := rfl
  have hJ : INT_MIN = -2147483648 := rfl
  have hc1 : checkInt (max - min) = some (max - min) := by
    simp only [checkInt]
    rw [if_pos]
    constructor <;> omega
  have hroom : INT_MAX.toNat = 2147483646 + 1 := by decide
  have hscan : RandomInt_scan (RandomInt_delta (max - min)) (g.draws g.calls) INT_MAX.toNat 1
      = some (⌊g.draws g.calls * ((max - min : Int) : ℚ)⌋ + 1) := by
    by_cases hz : max - min = 0
    · rw [hroom, hz]
      simp [RandomInt_scan, RandomInt_delta, RandomInt_test]
    · have hpos : 0 < max - min := by omega
      have : RandomInt_delta (max - min) = some (1 / ((max - min : Int) : ℚ)) := by
        simp only [RandomInt_delta, hz, if_false]
      rw [this]
      apply scan_floor _ hpos
      · omega
      · rw [hroom]
        rcases hb.2 with h | h
        · omega
        · omega
  have hc2 : checkInt (⌊g.draws g.calls * ((max - min : Int) : ℚ)⌋ + 1 - 1 + min)
      = some (min + ⌊g.draws g.calls * ((max - min : Int) : ℚ)⌋) := by
    simp only [checkInt]
    rw [if_pos]
    · congr 1; omega
    · rcases hb.2 with h | h
      · constructor <;> omega
      · rw [h] at hb ⊢
        simp only [Int.cast_zero, mul_zero, Int.floor_zero] at hb ⊢
        constructor <;> omega
  simp only [RandomInt, hc1, Random, hscan, hc2]

/-! ## Lemmas: the sampling loop and rpg as a whole -/

theorem UnitDraws.advance {g : Rng} (h : UnitDraws g) (k : Nat) : UnitDraws (g.advance k) := h

theorem fill_eq (a : List Cell) (len : Int) (hlen0 : 0 ≤ len) (hlenM : len ≤ INT_MAX)
    (hcells : ∀ j : Nat, (j : Int) ≤ len → (load a j).isSome) :
    ∀ (k : Nat) (g : Rng), UnitDraws g →
      rpg_fill a len k g
        = some ((List.range k).map (fun i => (load a (drawIndex len g i)).getD NUL), g.advance k) := by
  intro k
  induction k with
  | zero => intro g _; rfl
  | succ k ih =>
    intro g hg
    have hI : INT_MIN = -2147483648 := rfl
    have hr := RandomInt_floor 0 len g hlen0 (by omega) hlenM (by omega) (hg _).1 (hg _).2
    simp only [sub_zero, zero_add] at hr
    have hb := floor_bounds len hlen0 (g.draws g.calls) (hg _).1 (hg _).2
    have hidx : ((⌊g.draws g.calls * (len : ℚ)⌋.toNat : Nat) : Int) ≤ len := by
      rcases hb.2 with h | h
      · omega
      · rw [h]; simp
    obtain ⟨c, hc⟩ := Option.isSome_iff_exists.1 (hcells _ hidx)
    have ih1 := ih (g.advance 1) (hg.advance 1)
    have hadv : (g.advance 1).advance k = g.advance (k + 1) := by
      simp only [Rng.advance, Nat.add_assoc, Nat.add_comm 1 k]
    have hdi : ∀ i, drawIndex len (g.advance 1) i = drawIndex len g (i + 1) := by
      intro i
      simp only [drawIndex, Rng.advance, Nat.add_assoc, Nat.add_comm 1 i]
    have h0 : drawIndex len g 0 = ⌊g.draws g.calls * (len : ℚ)⌋.toNat := by
      simp [drawIndex]
    rw [rpg_fill, hr]
    simp only
    rw [if_neg (by omega), hc]
    simp only
    have : ({ g with calls := g.calls + 1 } : Rng) = g.advance 1 := rfl
    rw [this, ih1, hadv]
    simp only [List.range_succ_eq_map, List.map_cons, List.map_map, h0, hc, Option.getD_some]
    congr 3
    apply List.map_congr_left
    intro i _
    simp only [Function.comp, hdi]

theorem holds_cells {a : List Cell} {s : List Char} (h : Holds a s) (j : Nat) (hj : j ≤ s.length) :
    (load a j).isSome := by
  obtain ⟨_, r, rfl⟩ := h
  rcases Nat.lt_or_ge j s.length with h1 | h1
  · rw [load_cells_lt _ _ _ h1, List.getElem?_eq_getElem h1]
    rfl
  · have e : j = s.length := by omega
    have := load_append (s.map some) (some NUL :: r) 0
    simp only [List.length_map, Nat.add_zero] at this
    rw [e, this]
    rfl

theorem rpg_stages (flags : Flags) (forbidden : List Char) :
    ∃ a0 a1, rpg_classes flags = some (a0, ((spec_alphabet flags).length : Int)) ∧
      rpg_remove a0 forbidden = some a1 ∧ Holds a0 (spec_alphabet flags) ∧
      Holds a1 (finalAlphabet flags forbidden) ∧
      ∀ j : Nat, j ≤ (spec_alphabet flags).length → (load a1 j).isSome := by
  obtain ⟨a0, e0, h0, _⟩ := classes_holds flags
  obtain ⟨a1, e1, h1, _, c1⟩ := remove_holds forbidden h0
  exact ⟨a0, a1, e0, e1, h0, h1, fun j hj => c1 j (holds_cells h0 j hj)⟩

theorem rpg_alphabet_eq (flags : Flags) (forbidden : List Char) :
    rpg_alphabet flags forbidden = some (finalAlphabet flags forbidden) := by
  obtain ⟨a0, a1, e0, e1, _, h1, _⟩ := rpg_stages flags forbidden
  simp only [rpg_alphabet, e0, e1, Option.some_bind, h1.cstr_eq]

theorem rpg_alphabet_before_eq (flags : Flags) :
    rpg_alphabet_before flags = some (spec_alphabet flags) := by
  obtain ⟨a0, e0, h0, _⟩ := classes_holds flags
  simp only [rpg_alphabet_before, e0, Option.some_bind, h0.cstr_eq]

theorem rpg_alphabet_len_eq (flags : Flags) :
    rpg_alphabet_len flags = some ((spec_alphabet flags).length : Int) := by
  obtain ⟨a0, e0, h0, _⟩ := classes_holds flags
  simp only [rpg_alphabet_len, e0, Option.map_some']

theorem rpg_run (n : Int) (flags : Flags) (forbidden : List Char) (g : Rng) (hg : UnitDraws g) :
    ∃ a0 a1, rpg_classes flags = some (a0, ((spec_alphabet flags).length : Int)) ∧
      rpg_remove a0 forbidden = some a1 ∧ Holds a1 (finalAlphabet flags forbidden) ∧
      rpg n flags forbidden g
        = some ((List.range n.toNat).map
            (fun i => (load a1 (drawIndex (spec_alphabet flags).length g i)).getD NUL) ++ [NUL],
          g.advance n.toNat) := by
  obtain ⟨a0, a1, e0, e1, _, h1, c1⟩ := rpg_stages flags forbidden
  have hlen := spec_alphabet_length_le flags
  have hI : INT_MAX = 2147483647 := rfl
  have hf := fill_eq a1 ((spec_alphabet flags).length : Int) (by omega) (by omega)
    (fun j hj => c1 j (by omega)) n.toNat g hg
  exact ⟨a0, a1, e0, e1, h1, by simp only [rpg, e0, e1, Option.some_bind, hf]⟩

theorem unitDraws_const (u : ℚ) (h0 : 0 ≤ u) (h1 : u < 1) : UnitDraws (constRng u) :=
  fun _ => ⟨h0, h1⟩

theorem drawIndex_const (len : Int) (u : ℚ) (i : Nat) :
    drawIndex len (constRng u) i = ⌊u * (len : ℚ)⌋.toNat := rfl

theorem rpg_eval (n : Int) (flags : Flags) (forbidden : List Char) (g : Rng) (hg : UnitDraws g)
    (A0 A1 : List Cell) (len : Int) (h0 : rpg_classes flags = some (A0, len))
    (h1 : rpg_remove A0 forbidden = some A1) :
    rpg n flags forbidden g
      = some ((List.range n.toNat).map (fun i => (load A1 (drawIndex len g i)).getD NUL) ++ [NUL],
          g.advance n.toNat) := by
  obtain ⟨a0, a1, e0, e1, _, hrun⟩ := rpg_run n flags forbidden g hg
  have h := Option.some.inj (h0.symm.trans e0)
  have ha : A0 = a0 := (Prod.mk.inj h).1
  have hl : len = ((spec_alphabet flags).length : Int) := (Prod.mk.inj h).2
  subst ha
  have hb : A1 = a1 := Option.some.inj (h1.symm.trans e1)
  subst hb
  rw [hrun, hl]

theorem classes_digitsOnly : rpg_classes digitsOnly = some (digitCells, 10) := by
  decide

/-! ## Lemmas: the cells behind the shortened alphabet -/

theorem nodup_filter_ne_length (fc : Char) (s : List Char) (hn : s.Nodup) :
    s.length ≤ (s.filter (fun c => c ≠ fc)).length + 1 := by
  have hsplit := (List.filter_append_perm (fun c => decide (c = fc)) s).length_eq
  rw [List.length_append] at hsplit
  have hc : (s.filter (fun c => decide (c = fc))).length ≤ 1 := by
    have h1 : (s.filter (fun c => decide (c = fc))).Nodup := hn.filter _
    have h2 : ∀ x ∈ s.filter (fun c => decide (c = fc)), x = fc := by
      intro x hx
      simpa using (List.mem_filter.1 hx).2
    rcases hl : s.filter (fun c => decide (c = fc)) with _ | ⟨x, _ | ⟨y, t⟩⟩
    · simp
    · simp
    · rw [hl] at h1 h2
      have hx := h2 x (by simp)
      have hy := h2 y (by simp)
      exact absurd (hx.trans hy.symm) (by
        intro hxy
        rw [hxy] at h1
        simp at h1)
  have he : s.filter (fun c => decide (c ≠ fc)) = s.filter (fun c => !decide (c = fc)) := by
    congr 1
    funext c
    simp
  rw [he]
  omega

theorem pass_tail (fc : Char) {a : List Cell} {s : List Char} (h : Holds a s) (hn : s.Nodup)
    (L : Nat) (ht : NulTail a s.length L) :
    ∃ a1, rpg_pass fc a = some a1 ∧ Holds a1 (s.filter (fun c => c ≠ fc)) ∧
      NulTail a1 (s.filter (fun c => c ≠ fc)).length L := by
  obtain ⟨hs, r, rfl⟩ := h
  have hk := nodup_filter_ne_length fc s hn
  refine ⟨_, pass_cells fc s r hs, ⟨fun hm => hs (List.mem_of_mem_filter hm), _, rfl⟩, ?_⟩
  intro j hj1 hj2
  rcases Nat.eq_or_lt_of_le hj1 with heq | hgt
  · have := load_append ((s.filter (fun c => c ≠ fc)).map some)
      (some NUL :: (s.map some ++ some NUL :: r).drop ((s.filter (fun c => c ≠ fc)).length + 1)) 0
    simp only [List.length_map, Nat.add_zero] at this
    rw [← heq, this]
    rfl
  · obtain ⟨e, rfl⟩ : ∃ e, j = (s.filter (fun c => c ≠ fc)).length + 1 + e :=
      ⟨j - ((s.filter (fun c => c ≠ fc)).length + 1), by omega⟩
    have := load_append ((s.filter (fun c => c ≠ fc)).map some ++ [some NUL])
      ((s.map some ++ some NUL :: r).drop ((s.filter (fun c => c ≠ fc)).length + 1)) e
    simp only [List.length_map, List.length_append, List.length_singleton, List.append_assoc,
      List.singleton_append] at this
    rw [this]
    have hd : load ((s.map some ++ some NUL :: r).drop ((s.filter (fun c => c ≠ fc)).length + 1)) e
        = load (s.map some ++ some NUL :: r) ((s.filter (fun c => c ≠ fc)).length + 1 + e) := by
      simp [load]
    rw [hd]
    exact ht _ (by omega) hj2

theorem remove_tail (f : List Char) : ∀ {a : List Cell} {s : List Char} (L : Nat), Holds a s →
    s.Nodup → NulTail a s.length L →
    ∃ a1, rpg_remove a f = some a1 ∧ Holds a1 (s.filter (fun c => c ∉ strOf f)) ∧
      NulTail a1 (s.filter (fun c => c ∉ strOf f)).length L := by
  induction f with
  | nil =>
    intro a s L h _ ht
    have e : s.filter (fun c => c ∉ strOf []) = s := by simp [strOf]
    rw [e]
    exact ⟨a, rfl, h, ht⟩
  | cons fc rest ih =>
    intro a s L h hn ht
    by_cases hfc : fc = NUL
    · have e : s.filter (fun c => c ∉ strOf (fc :: rest)) = s := by simp [strOf, hfc]
      rw [e]
      exact ⟨a, by simp [rpg_remove, hfc], h, ht⟩
    · obtain ⟨a1, e1, h1, t1⟩ := pass_tail fc h hn L ht
      obtain ⟨a2, e2, h2, t2⟩ := ih L h1 (hn.filter _) t1
      have : (s.filter (fun c => c ≠ fc)).filter (fun c => c ∉ strOf rest)
          = s.filter (fun c => c ∉ strOf (fc :: rest)) := by
        rw [List.filter_filter, strOf_cons _ _ hfc]
        congr 1
        funext c
        simp [Bool.and_comm]
      rw [← this]
      exact ⟨a2, by simp [rpg_remove, hfc, e1, e2], h2, t2⟩

theorem holds_load {a : List Cell} {s : List Char} (h : Holds a s) (j : Nat) (hj : j < s.length) :
    load a j = s[j]? := by
  obtain ⟨_, r, rfl⟩ := h
  exact load_cells_lt s _ j hj

theorem holds_nulTail {a : List Cell} {s : List Char} (h : Holds a s) :
    NulTail a s.length s.length := by
  obtain ⟨_, r, rfl⟩ := h
  intro j h1 h2
  have e : j = s.length := by omega
  have := load_append (s.map some) (some NUL :: r) 0
  simp only [List.length_map, Nat.add_zero] at this
  rw [e, this]
  rfl

theorem drawIndex_le (len : Int) (hlen : 0 ≤ len) (g : Rng) (hg : UnitDraws g) (i : Nat) :
    (drawIndex len g i : Int) ≤ len := by
  have hb := floor_bounds len hlen (g.draws (g.calls + i)) (hg _).1 (hg _).2
  unfold drawIndex
  rcases hb.2 with h | h
  · omega
  · rw [h]; simp

theorem rpg_stored (n : Int) (flags : Flags) (forbidden : List Char) (g : Rng) (hg : UnitDraws g) :
    ∃ buff, rpg n flags forbidden g = some (buff, g.advance n.toNat) ∧
      buff.length = n.toNat + 1 ∧ buff.getLast? = some NUL ∧
      ∀ c ∈ buff, c ∈ finalAlphabet flags forbidden ∨ c = NUL := by
  obtain ⟨a0, e0, h0, _⟩ := classes_holds flags
  obtain ⟨a1, e1, h1, t1⟩ := remove_tail forbidden (spec_alphabet flags).length h0
    (spec_alphabet_nodup flags) (holds_nulTail h0)
  have hrun := rpg_eval n flags forbidden g hg a0 a1 _ e0 e1
  replace h1 : Holds a1 (finalAlphabet flags forbidden) := h1
  replace t1 : NulTail a1 (finalAlphabet flags forbidden).length (spec_alphabet flags).length := t1
  refine ⟨_, hrun, by simp, by simp, ?_⟩
  intro c hc
  rcases List.mem_append.1 hc with hc | hc
  · obtain ⟨i, _, rfl⟩ := List.mem_map.1 hc
    have hle := drawIndex_le ((spec_alphabet flags).length : Int) (by omega) g hg i
    rcases Nat.lt_or_ge (drawIndex ((spec_alphabet flags).length : Int) g i)
        (finalAlphabet flags forbidden).length with hlt | hge
    · left
      rw [holds_load h1 _ hlt, List.getElem?_eq_getElem hlt]
      exact List.getElem_mem _
    · right
      rw [t1 _ hge (by omega)]
      rfl
  · right
    simpa using hc

/-! ## Claims -/

/-- C1 (the code departs from the claim; evaluation at the failing input).  Digits only,
forbidden string "0", one character requested, draw 19/20.  The alphabet is "123456789",
but `ascii_chars_len` is still 10, index 9 is drawn, and the character stored in `buff[0]`
is the terminator found in cell 9, which is not a member of the alphabet. -/
theorem rpg_samples_past_alphabet :
    rpg_alphabet digitsOnly "0".toList = some "123456789".toList ∧
    rpg_alphabet_len digitsOnly = some 10 ∧
    rpg 1 digitsOnly "0".toList (constRng (19 / 20))
      = some ([NUL, NUL], (constRng (19 / 20)).advance 1) ∧
    NUL ∉ "123456789".toList := by
  have h1 : rpg_remove digitCells "0".toList
      = some ("123456789".toList.map some ++ some NUL :: some NUL :: List.replicate 117 none) := by
    decide
  have hf : ⌊(19 / 20 : ℚ) * ((10 : Int) : ℚ)⌋ = 9 := by
    rw [Int.floor_eq_iff]; norm_num
  refine ⟨?_, ?_, ?_, by decide⟩
  · rw [rpg_alphabet_eq]; decide
  · rw [rpg_alphabet_len_eq]; decide
  · rw [rpg_eval 1 digitsOnly "0".toList _ (unitDraws_const _ (by norm_num) (by norm_num)) _ _ _
      classes_digitsOnly h1]
    simp only [drawIndex_const, hf]
    rfl

/-- C2 (the code departs from the claim; evaluation at the failing input).  Digits only,
forbidden string "9", three characters requested, draws 1/20, 19/20, 1/2.  The cells stored
in `buff` are '0', the terminator, '5' and the final terminator, so the string that `main`
prints is "0": one character, not three. -/
theorem rpg_password_cut_short :
    rpg 3 digitsOnly "9".toList (listRng [1 / 20, 19 / 20, 1 / 2])
      = some (['0', NUL, '5', NUL], (listRng [1 / 20, 19 / 20, 1 / 2]).advance 3) ∧
    printed ['0', NUL, '5', NUL] = ['0'] ∧
    (printed ['0', NUL, '5', NUL]).length ≠ 3 := by
  have h1 : rpg_remove digitCells "9".toList
      = some ("012345678".toList.map some ++ some NUL :: some NUL :: List.replicate 117 none) := by
    decide
  have hg : UnitDraws (listRng [1 / 20, 19 / 20, 1 / 2]) := by
    intro i
    rcases i with _ | _ | _ | i <;> simp [listRng] <;> norm_num
  have f0 : drawIndex 10 (listRng [1 / 20, 19 / 20, 1 / 2]) 0 = 0 := by
    have hf : ⌊(1 / 20 : ℚ) * ((10 : Int) : ℚ)⌋ = 0 := by rw [Int.floor_eq_iff]; norm_num
    show ⌊(1 / 20 : ℚ) * ((10 : Int) : ℚ)⌋.toNat = 0
    rw [hf]; rfl
  have f1 : drawIndex 10 (listRng [1 / 20, 19 / 20, 1 / 2]) 1 = 9 := by
    have hf : ⌊(19 / 20 : ℚ) * ((10 : Int) : ℚ)⌋ = 9 := by rw [Int.floor_eq_iff]; norm_num
    show ⌊(19 / 20 : ℚ) * ((10 : Int) : ℚ)⌋.toNat = 9
    rw [hf]; rfl
  have f2 : drawIndex 10 (listRng [1 / 20, 19 / 20, 1 / 2]) 2 = 5 := by
    have hf : ⌊(1 / 2 : ℚ) * ((10 : Int) : ℚ)⌋ = 5 := by rw [Int.floor_eq_iff]; norm_num
    show ⌊(1 / 2 : ℚ) * ((10 : Int) : ℚ)⌋.toNat = 5
    rw [hf]; rfl
  refine ⟨?_, by decide, by decide⟩
  rw [rpg_eval 3 digitsOnly "9".toList _ hg _ _ _ classes_digitsOnly h1]
  have hr : List.range (Int.toNat 3) = [0, 1, 2] := by decide
  simp only [hr, List.map_cons, List.map_nil, f0, f1, f2]
  rfl

/-- C3.  For every class selection and every forbidden string (in particular one whose
characters all belong to the literal of a selected class), after the removal loop no
forbidden character occurs in the string held in `ascii_chars`, and that string is shorter
than before the loop by exactly the number of distinct forbidden characters that occurred
in it. -/
theorem rpg_removal_exact (flags : Flags) (forbidden : List Char) :
    ∃ before after, rpg_alphabet_before flags = some before ∧
      rpg_alphabet flags forbidden = some after ∧
      (∀ c ∈ strOf forbidden, c ∉ after) ∧
      after.length + ((strOf forbidden).dedup.filter (fun c => c ∈ before)).length
        = before.length := by
  refine ⟨spec_alphabet flags, finalAlphabet flags forbidden, rpg_alphabet_before_eq flags,
    rpg_alphabet_eq flags forbidden, ?_, ?_⟩
  · intro c hc hmem
    have := (List.mem_filter.1 hmem).2
    simp [hc] at this
  · have hsplit := List.filter_append_perm (fun c => decide (c ∈ strOf forbidden)) (spec_alphabet flags)
    have hperm : ((spec_alphabet flags).filter (fun c => decide (c ∈ strOf forbidden))).Perm
        ((strOf forbidden).dedup.filter (fun c => c ∈ spec_alphabet flags)) := by
      rw [List.perm_ext_iff_of_nodup ((spec_alphabet_nodup flags).filter _)
        ((List.nodup_dedup _).filter _)]
      intro c
      simp [List.mem_filter, and_comm]
    have hlen := hsplit.length_eq
    rw [List.length_append, hperm.length_eq] at hlen
    have he : finalAlphabet flags forbidden
        = (spec_alphabet flags).filter (fun c => !decide (c ∈ strOf forbidden)) := by
      unfold finalAlphabet
      congr 1
      funext c
      simp
    rw [he]
    omega

/-- C4.  For every class selection and the empty forbidden string, the alphabet that `rpg`
builds is the concatenation, in the order digits, uppercase, lowercase, special, extended,
of the literal of each selected class, the reduce-confusion variant when that flag is set;
the variant of the digits is "023456789", the special class is the same twelve characters
either way, and digits only without reduce-confusion gives "0123456789". -/
theorem rpg_alphabet_is_concatenation (flags : Flags) :
    rpg_alphabet flags [] = some (spec_alphabet flags) ∧
    spec_literal true CharClass.digits = "023456789".toList ∧
    spec_literal true CharClass.special = spec_literal false CharClass.special ∧
    (spec_literal false CharClass.special).length = 12 ∧
    rpg_alphabet digitsOnly [] = some "0123456789".toList := by
  have h : ∀ fl, rpg_alphabet fl [] = some (spec_alphabet fl) := by
    intro fl
    rw [rpg_alphabet_eq]
    simp [finalAlphabet, strOf]
  exact ⟨h flags, by decide, by decide, by decide, by rw [h]; decide⟩

/-- C5.  For every class selection and the empty forbidden string, `ascii_chars_len`, the
bound that `rpg` samples under, equals the sum of the literal lengths of the selected
classes (10, 26, 26, 12, 20, or 9, 25, 25, 12, 19 with reduce-confusion) and equals the
number of characters in the alphabet string. -/
theorem rpg_alphabet_len_is_sum (flags : Flags) :
    ∃ s, rpg_alphabet flags [] = some s ∧
      rpg_alphabet_len flags = some (spec_total flags : Int) ∧
      s.length = spec_total flags := by
  refine ⟨spec_alphabet flags, ?_, ?_, spec_alphabet_length flags⟩
  · rw [rpg_alphabet_eq]
    simp [finalAlphabet, strOf]
  · rw [rpg_alphabet_len_eq, spec_alphabet_length]

/-- C6.  For every class selection with `reduce_confusion` set and every forbidden string,
the alphabet that `rpg` builds contains none of the characters '1', 'O', 'l', '|'. -/
theorem rpg_reduce_confusion_drops (flags : Flags) (forbidden : List Char)
    (h : flags.reduce_confusion = true) :
    ∃ s, rpg_alphabet flags forbidden = some s ∧ '1' ∉ s ∧ 'O' ∉ s ∧ 'l' ∉ s ∧ '|' ∉ s := by
  have key : ∀ c ∈ ['1', 'O', 'l', '|'], c ∉ finalAlphabet flags forbidden := by
    intro c hc hmem
    have h1 : c ∈ spec_alphabet flags := List.mem_of_mem_filter hmem
    have h2 := (spec_alphabet_sublist flags).subset h1
    rw [h] at h2
    exact fullAlphabet_reduced c hc h2
  exact ⟨_, rpg_alphabet_eq flags forbidden, key _ (by simp), key _ (by simp), key _ (by simp),
    key _ (by simp)⟩

/-- C6, witness: all five classes with reduce-confusion and the forbidden string "x". -/
theorem rpg_reduce_confusion_drops_witness :
    (allClasses true).reduce_confusion = true ∧
    ∃ s, rpg_alphabet (allClasses true) "x".toList = some s ∧
      '1' ∉ s ∧ 'O' ∉ s ∧ 'l' ∉ s ∧ '|' ∉ s :=
  ⟨rfl, rpg_reduce_confusion_drops (allClasses true) "x".toList rfl⟩

/-- A store sequence that starts inside the array and runs past its end fails. -/
theorem storeAll_past_end (cells : List Char) : ∀ (buff : List Cell) (i : Nat),
    i ≤ buff.length → buff.length < i + cells.length → storeAll buff i cells = none := by
  induction cells with
  | nil => intro buff i h1 h2; simp at h2; omega
  | cons c rest ih =>
    intro buff i h1 h2
    rcases Nat.lt_or_ge i buff.length with hlt | hge
    · have hs : store buff i c = some (buff.set i (some c)) := by simp [store, hlt]
      rw [storeAll, hs, Option.some_bind]
      apply ih
      · simp only [List.length_set]; omega
      · simp only [List.length_set, List.length_cons] at h2 ⊢; omega
    · have hs : store buff i c = none := by simp [store]; omega
      rw [storeAll, hs]
      rfl

/-- A store sequence that ends inside the array succeeds. -/
theorem storeAll_inside (cells : List Char) : ∀ (buff : List Cell) (i : Nat),
    i + cells.length ≤ buff.length → (storeAll buff i cells).isSome := by
  induction cells with
  | nil => intro buff i _; rfl
  | cons c rest ih =>
    intro buff i h
    have hlt : i < buff.length := by simp only [List.length_cons] at h; omega
    have hs : store buff i c = some (buff.set i (some c)) := by simp [store, hlt]
    rw [storeAll, hs, Option.some_bind]
    apply ih
    simp only [List.length_set, List.length_cons] at h ⊢
    omega

/-- With digits only, nothing forbidden and every draw 0, `rpg` stores the character '0'
at every position. -/
theorem rpg_zero_draws (n : Int) (k : Nat) :
    rpg n digitsOnly [] ((constRng 0).advance k)
      = some (List.replicate n.toNat '0' ++ [NUL], ((constRng 0).advance k).advance n.toNat) := by
  have h1 : rpg_remove digitCells [] = some digitCells := rfl
  have hg : UnitDraws ((constRng 0).advance k) :=
    (unitDraws_const 0 (by norm_num) (by norm_num)).advance k
  rw [rpg_eval n digitsOnly [] _ hg _ _ _ classes_digitsOnly h1]
  have hd : ∀ i, drawIndex 10 ((constRng 0).advance k) i = 0 := by
    intro i
    show ⌊(0 : ℚ) * ((10 : Int) : ℚ)⌋.toNat = 0
    simp
  have hm : (List.range n.toNat).map
      (fun i => (load digitCells (drawIndex 10 ((constRng 0).advance k) i)).getD NUL)
      = List.replicate n.toNat '0' := by
    have : (fun i : Nat => (load digitCells (drawIndex 10 ((constRng 0).advance k) i)).getD NUL)
        = fun _ => '0' := by
      funext i
      rw [hd]
      rfl
    rw [this, List.map_const', List.length_range]
  rw [hm]

/-- For a requested length of `MAX_PW_LENGTH` or more, a store of `rpg` falls outside the
array of `main`. -/
theorem main_generate_past (n : Int) (flags : Flags) (f : List Char) (g : Rng)
    (hg : UnitDraws g) (hn : (MAX_PW_LENGTH : Int) ≤ n) :
    main_generate n flags f g = none := by
  obtain ⟨buff, hrun, hlen, _⟩ := rpg_stored n (main_defaults flags) f (Random g).2 (hg.advance 1)
  have hM : MAX_PW_LENGTH = 512 := rfl
  have hpast : storeAll (List.replicate MAX_PW_LENGTH none) 0 buff = none := by
    apply storeAll_past_end _ _ 0 (Nat.zero_le _)
    rw [List.length_replicate, hlen]
    omega
  unfold main_generate
  rw [hrun, Option.some_bind]
  show (storeAll (List.replicate MAX_PW_LENGTH none) 0 buff).map _ = none
  rw [hpast]
  rfl

/-- For a requested length below `MAX_PW_LENGTH`, every store of `rpg` is inside the array
of `main`. -/
theorem main_generate_inside (n : Int) (flags : Flags) (f : List Char) (g : Rng)
    (hg : UnitDraws g) (hn : n < (MAX_PW_LENGTH : Int)) :
    (main_generate n flags f g).isSome = true := by
  obtain ⟨buff, hrun, hlen, _⟩ := rpg_stored n (main_defaults flags) f (Random g).2 (hg.advance 1)
  have hM : MAX_PW_LENGTH = 512 := rfl
  have hin : (storeAll (List.replicate MAX_PW_LENGTH none) 0 buff).isSome = true := by
    apply storeAll_inside
    rw [List.length_replicate, hlen]
    omega
  obtain ⟨b, hb⟩ := Option.isSome_iff_exists.1 hin
  unfold main_generate
  rw [hrun, Option.some_bind]
  show ((storeAll (List.replicate MAX_PW_LENGTH none) 0 buff).map _).isSome = true
  rw [hb]
  rfl

/-- C8 (the code departs from the claim; evaluation at the failing input).  Digits only,
no forbidden character, requested length 512, every draw 0.  `main` hands the unchecked
length to `rpg` together with an array of `MAX_PW_LENGTH` = 512 cells; `rpg` does not
reject the request but produces 512 characters and the terminator, 513 cells, so its last
store falls outside the array of `main`.  With length 511 every store is inside. -/
theorem main_writes_past_buffer :
    rpg 512 (main_defaults digitsOnly) [] (Random (constRng 0)).2
      = some (List.replicate 512 '0' ++ [NUL], ((constRng 0).advance 1).advance 512) ∧
    MAX_PW_LENGTH < (List.replicate 512 '0' ++ [NUL]).length ∧
    main_generate 512 digitsOnly [] (constRng 0) = none ∧
    (main_generate 511 digitsOnly [] (constRng 0)).isSome = true := by
  have hd : main_defaults digitsOnly = digitsOnly := by decide
  have hr : (Random (constRng 0)).2 = (constRng 0).advance 1 := rfl
  have hg : UnitDraws (constRng 0) := unitDraws_const 0 (by norm_num) (by norm_num)
  refine ⟨?_, ?_, main_generate_past 512 digitsOnly [] (constRng 0) hg (by decide),
    main_generate_inside 511 digitsOnly [] (constRng 0) hg (by decide)⟩
  · rw [hd, hr, rpg_zero_draws 512 1]
    rfl
  · rw [List.length_append, List.length_replicate]
    decide

/-- C9.  For every class selection and forbidden string, `rpg` called with `n = 0` stores
the terminator alone in `buff`, so the password is empty; it does so without error and
leaves the random source as it found it, no value drawn. -/
theorem rpg_zero_length (flags : Flags) (forbidden : List Char) (g : Rng) :
    rpg 0 flags forbidden g = some ([NUL], g) ∧ printed [NUL] = [] := by
  obtain ⟨a0, a1, e0, e1, _⟩ := rpg_stages flags forbidden
  refine ⟨?_, by decide⟩
  simp only [rpg, e0, e1, Option.some_bind, Int.toNat_zero, rpg_fill, List.nil_append]

/-- C10.  The class-defaulting step of `main`: if none of `digits`, `lower`, `upper`,
`special`, `more` is set, all five are set before `rpg` is called; otherwise the flag record
is passed unchanged; `reduce_confusion` is unchanged in both cases, and at least one class
flag is true afterwards. -/
theorem main_defaults_selects (flags : Flags) :
    ((flags.digits = false ∧ flags.lower = false ∧ flags.upper = false ∧
        flags.special = false ∧ flags.more = false) →
      (main_defaults flags).digits = true ∧ (main_defaults flags).lower = true ∧
      (main_defaults flags).upper = true ∧ (main_defaults flags).special = true ∧
      (main_defaults flags).more = true) ∧
    ((flags.digits = true ∨ flags.lower = true ∨ flags.upper = true ∨
        flags.special = true ∨ flags.more = true) → main_defaults flags = flags) ∧
    (main_defaults flags).reduce_confusion = flags.reduce_confusion ∧
    ((main_defaults flags).digits = true ∨ (main_defaults flags).lower = true ∨
      (main_defaults flags).upper = true ∨ (main_defaults flags).special = true ∨
      (main_defaults flags).more = true) := by
  rcases flags with ⟨_ | _, _ | _, _ | _, _ | _, _ | _, _ | _⟩ <;> decide

/-! ## Lemmas: the scan of RandomInt -/

theorem scan_result (d : Int) (hd : 0 ≤ d) (u : ℚ) (h0 : 0 ≤ u) (room : Nat)
    (hroom : ⌊u * (d : ℚ)⌋.toNat < room) :
    RandomInt_scan (RandomInt_delta d) u room 1 = some (⌊u * (d : ℚ)⌋ + 1) := by
  have hdq : (0 : ℚ) ≤ (d : ℚ) := by exact_mod_cast hd
  have hfl : 0 ≤ ⌊u * (d : ℚ)⌋ := Int.floor_nonneg.2 (mul_nonneg h0 hdq)
  by_cases hz : d = 0
  · obtain ⟨room, rfl⟩ : ∃ k, room = k + 1 := ⟨room - 1, by omega⟩
    rw [hz]
    simp [RandomInt_scan, RandomInt_delta, RandomInt_test]
  · have hpos : 0 < d := by omega
    have : RandomInt_delta d = some (1 / (d : ℚ)) := by
      simp only [RandomInt_delta, hz, if_false]
    rw [this]
    exact scan_floor d hpos u room 1 (by omega) (by omega)

theorem scan_minimal (d : Int) (hd : 0 < d) (u : ℚ) :
    u < ((⌊u * (d : ℚ)⌋ + 1 : Int) : ℚ) * (1 / (d : ℚ)) ∧
    ∀ j : Int, j < ⌊u * (d : ℚ)⌋ + 1 → (j : ℚ) * (1 / (d : ℚ)) ≤ u := by
  have hdq : (0 : ℚ) < (d : ℚ) := by exact_mod_cast hd
  constructor
  · rw [mul_one_div, lt_div_iff₀ hdq]
    have := Int.lt_floor_add_one (u * (d : ℚ))
    push_cast
    exact this
  · intro j hj
    rw [mul_one_div, div_le_iff₀ hdq]
    have hj2 : j ≤ ⌊u * (d : ℚ)⌋ := by omega
    exact Int.le_floor.1 hj2

/-! ## Claims, continued -/

/-- C11.  Over exact arithmetic, for all `int` values `min < max` whose difference is
representable and every draw `u` with `0 <= u < 1`, the scan of `RandomInt(min, max)` stops
at the smallest positive integer `k` with `k * (1/(max - min)) > u`, the comparison being
strict, and the function returns `(k - 1) + min`, which is `min + floor(u * (max - min))`.
With `min = 0` and `max = 10` the draws 1/20, 19/20 and 1/2 give the indices 0, 9 and 5. -/
theorem RandomInt_is_floor (min max : Int) (g : Rng) (hlt : min < max) (hmin : INT_MIN ≤ min)
    (hmax : max ≤ INT_MAX) (hd : max - min ≤ INT_MAX)
    (h0 : 0 ≤ g.draws g.calls) (h1 : g.draws g.calls < 1) :
    (∃ k : Int,
      RandomInt_scan (RandomInt_delta (max - min)) (g.draws g.calls) INT_MAX.toNat 1 = some k ∧
      1 ≤ k ∧ g.draws g.calls < (k : ℚ) * (1 / ((max - min : Int) : ℚ)) ∧
      (∀ j : Int, 1 ≤ j → j < k → (j : ℚ) * (1 / ((max - min : Int) : ℚ)) ≤ g.draws g.calls) ∧
      RandomInt min max g = some ((k - 1) + min, g.advance 1) ∧
      (k - 1) + min = min + ⌊g.draws g.calls * ((max - min : Int) : ℚ)⌋) ∧
    (RandomInt 0 10 (constRng (1 / 20))).map Prod.fst = some 0 ∧
    (RandomInt 0 10 (constRng (19 / 20))).map Prod.fst = some 9 ∧
    (RandomInt 0 10 (constRng (1 / 2))).map Prod.fst = some 5 := by
  have hI : INT_MAX = 2147483647 := rfl
  have hJ : INT_MIN = -2147483648 := rfl
  have hb := floor_bounds (max - min) (by omega) (g.draws g.calls) h0 h1
  have hmn := scan_minimal (max - min) (by omega) (g.draws g.calls)
  have hex : ∀ u : ℚ, 0 ≤ u → u < 1 →
      (RandomInt 0 10 (constRng u)).map Prod.fst = some ⌊u * 10⌋ := by
    intro u hu0 hu1
    rw [RandomInt_floor 0 10 (constRng u) (by decide) (by decide) (by decide) (by decide) hu0 hu1]
    simp [constRng]
  refine ⟨⟨⌊g.draws g.calls * ((max - min : Int) : ℚ)⌋ + 1, ?_, by omega, hmn.1,
    fun j _ hj => hmn.2 j hj, ?_, by omega⟩, ?_, ?_, ?_⟩
  · apply scan_result _ (by omega) _ h0
    rcases hb.2 with h | h <;> omega
  · rw [RandomInt_floor min max g (by omega) hmin hmax hd h0 h1]
    congr 2
    omega
  · rw [hex _ (by norm_num) (by norm_num)]
    congr 1
    rw [Int.floor_eq_iff]; norm_num
  · rw [hex _ (by norm_num) (by norm_num)]
    congr 1
    rw [Int.floor_eq_iff]; norm_num
  · rw [hex _ (by norm_num) (by norm_num)]
    congr 1
    rw [Int.floor_eq_iff]; norm_num

/-- C11, witness: `min = 3`, `max = 13` and the draw 19/20, which selects 12. -/
theorem RandomInt_is_floor_witness :
    (3 : Int) < 13 ∧ INT_MIN ≤ 3 ∧ (13 : Int) ≤ INT_MAX ∧ (13 : Int) - 3 ≤ INT_MAX ∧
    0 ≤ (constRng (19 / 20)).draws (constRng (19 / 20)).calls ∧
    (constRng (19 / 20)).draws (constRng (19 / 20)).calls < 1 ∧
    RandomInt 3 13 (constRng (19 / 20)) = some (12, (constRng (19 / 20)).advance 1) := by
  have hu0 : 0 ≤ (constRng (19 / 20)).draws (constRng (19 / 20)).calls := by
    show (0 : ℚ) ≤ 19 / 20
    norm_num
  have hu1 : (constRng (19 / 20)).draws (constRng (19 / 20)).calls < 1 := by
    show (19 / 20 : ℚ) < 1
    norm_num
  obtain ⟨⟨k, _, _, _, _, hr, hk⟩, _⟩ := RandomInt_is_floor 3 13 (constRng (19 / 20))
    (by decide) (by decide) (by decide) (by decide) hu0 hu1
  refine ⟨by decide, by decide, by decide, by decide, hu0, hu1, ?_⟩
  have hf : ⌊(constRng (19 / 20)).draws (constRng (19 / 20)).calls * (((13 : Int) - 3 : Int) : ℚ)⌋
      = 9 := by
    show ⌊(19 / 20 : ℚ) * (((13 : Int) - 3 : Int) : ℚ)⌋ = 9
    rw [Int.floor_eq_iff]; norm_num
  rw [hr, hk, hf]
  rfl

/-! ## Lemmas: algebra of the alphabet -/

theorem strOf_append_left (p f : List Char) (hp : NUL ∉ p) : strOf (p ++ f) = p ++ strOf f := by
  induction p with
  | nil => rfl
  | cons c p ih =>
    have hc : c ≠ NUL := fun h => hp (by simp [h])
    have hp2 : NUL ∉ p := fun h => hp (by simp [h])
    rw [List.cons_append, strOf_cons _ _ hc, ih hp2, List.cons_append]

theorem spec_alphabet_onlyClass (k : CharClass) (rc : Bool) :
    spec_alphabet (onlyClass k rc) = spec_literal rc k := by
  cases k <;> cases rc <;> decide

theorem spec_literal_subset (rc : Bool) (k : CharClass) : ∀ c ∈ spec_literal rc k, c ∈ spec_normal k := by
  intro c hc
  unfold spec_literal at hc
  split at hc
  · exact List.mem_of_mem_filter hc
  · exact hc

theorem spec_normal_disjoint (k1 k2 : CharClass) (h : k1 ≠ k2) :
    ∀ c ∈ spec_normal k1, c ∉ spec_normal k2 := by
  cases k1 <;> cases k2 <;> first | exact absurd rfl h | decide

theorem spec_literal_nodup (rc : Bool) (k : CharClass) : (spec_literal rc k).Nodup := by
  cases k <;> cases rc <;> decide

theorem spec_literal_reduced (k : CharClass) :
    spec_literal true k = (spec_literal false k).filter (fun c => c ∉ "1Ol|".toList) := by
  cases k <;> decide

theorem spec_part_withReduce (flags : Flags) (k : CharClass) :
    spec_part (withReduce flags true) k
      = (spec_part (withReduce flags false) k).filter (fun c => c ∉ "1Ol|".toList) := by
  have hsel : ∀ rc, selected (withReduce flags rc) k = selected flags k := by
    intro rc
    cases k <;> rfl
  unfold spec_part
  rw [hsel, hsel]
  split
  · exact spec_literal_reduced k
  · rfl

theorem spec_alphabet_withReduce (flags : Flags) :
    spec_alphabet (withReduce flags true)
      = (spec_alphabet (withReduce flags false)).filter (fun c => c ∉ "1Ol|".toList) := by
  rw [spec_alphabet_parts, spec_alphabet_parts]
  simp only [List.filter_append, spec_part_withReduce]

theorem finalAlphabet_withReduce (flags : Flags) (forbidden : List Char) :
    finalAlphabet (withReduce flags true) forbidden
      = finalAlphabet (withReduce flags false) ("1Ol|".toList ++ forbidden) := by
  unfold finalAlphabet
  rw [spec_alphabet_withReduce, List.filter_filter, strOf_append_left _ _ (by decide)]
  apply List.filter_congr
  intro c _
  simp only [List.mem_append, not_or, Bool.decide_and, Bool.and_comm]

/-! ## Claims on the alphabet -/

/-- C12.  For every class selection and every forbidden string, the alphabet string left
by the multi-pass in-place removal of `rpg` (one pass per forbidden character, in the order
supplied) equals the single-pass filter that keeps, in their original order, exactly the
characters of the concatenated classes that do not occur in the forbidden string; digits
and uppercase with reduce-confusion and forbidden "A" give
"023456789BCDEFGHIJKLMNPQRSTUVWXYZ". -/
theorem rpg_removal_is_single_pass (flags : Flags) (forbidden : List Char) :
    (∃ before, rpg_alphabet_before flags = some before ∧
      rpg_alphabet flags forbidden = some (spec_single_pass before forbidden)) ∧
    rpg_alphabet digitsUpperReduced "A".toList
      = some "023456789BCDEFGHIJKLMNPQRSTUVWXYZ".toList := by
  refine ⟨⟨spec_alphabet flags, rpg_alphabet_before_eq flags, rpg_alphabet_eq flags forbidden⟩, ?_⟩
  rw [rpg_alphabet_eq]
  decide

/-- C13.  For every class selection and any two forbidden strings that contain the same
set of characters, differing only in order or in repetitions, the removal loop of `rpg`
leaves the same alphabet string. -/
theorem rpg_removal_order_free (flags : Flags) (f1 f2 : List Char)
    (h : ∀ c, c ∈ strOf f1 ↔ c ∈ strOf f2) :
    rpg_alphabet flags f1 = rpg_alphabet flags f2 := by
  rw [rpg_alphabet_eq, rpg_alphabet_eq]
  congr 1
  unfold finalAlphabet
  apply List.filter_congr
  intro c _
  simp only [h c]

/-- C13, witness: all classes, the forbidden strings "ab" and "bba". -/
theorem rpg_removal_order_free_witness :
    (∀ c, c ∈ strOf "ab".toList ↔ c ∈ strOf "bba".toList) ∧
    rpg_alphabet (allClasses false) "ab".toList = rpg_alphabet (allClasses false) "bba".toList := by
  have h : ∀ c, c ∈ strOf "ab".toList ↔ c ∈ strOf "bba".toList := by
    intro c
    have e1 : strOf "ab".toList = ['a', 'b'] := by decide
    have e2 : strOf "bba".toList = ['b', 'b', 'a'] := by decide
    rw [e1, e2]
    simp only [List.mem_cons, List.mem_singleton, List.not_mem_nil, or_false]
    tauto
  exact ⟨h, rpg_removal_order_free (allClasses false) "ab".toList "bba".toList h⟩

/-- C14.  For every class selection, with or without reduce-confusion, and every forbidden
string, the alphabet that `rpg` builds contains no character twice; the literal of each
class, in either variant, is duplicate-free, and the literals of two different classes, in
any variants, have no character in common. -/
theorem rpg_alphabet_nodup (flags : Flags) (forbidden : List Char) :
    (∃ s, rpg_alphabet flags forbidden = some s ∧ s.Nodup) ∧
    (∀ (rc : Bool) (k : CharClass),
      ∃ l, rpg_alphabet_before (onlyClass k rc) = some l ∧ l.Nodup) ∧
    (∀ (rc1 rc2 : Bool) (k1 k2 : CharClass), k1 ≠ k2 →
      ∃ l1 l2, rpg_alphabet_before (onlyClass k1 rc1) = some l1 ∧
        rpg_alphabet_before (onlyClass k2 rc2) = some l2 ∧ ∀ c ∈ l1, c ∉ l2) := by
  refine ⟨⟨_, rpg_alphabet_eq flags forbidden, (spec_alphabet_nodup flags).filter _⟩, ?_, ?_⟩
  · intro rc k
    refine ⟨spec_literal rc k, ?_, spec_literal_nodup rc k⟩
    rw [rpg_alphabet_before_eq, spec_alphabet_onlyClass]
  · intro rc1 rc2 k1 k2 hk
    refine ⟨spec_literal rc1 k1, spec_literal rc2 k2, ?_, ?_, ?_⟩
    · rw [rpg_alphabet_before_eq, spec_alphabet_onlyClass]
    · rw [rpg_alphabet_before_eq, spec_alphabet_onlyClass]
    · intro c h1 h2
      exact spec_normal_disjoint k1 k2 hk c (spec_literal_subset rc1 k1 c h1)
        (spec_literal_subset rc2 k2 c h2)

/-- C18.  For every class selection and forbidden string, enabling `reduce_confusion`
gives the same alphabet string as leaving it off and forbidding, in addition and first, the
four characters "1Ol|". -/
theorem rpg_reduce_is_forbid (flags : Flags) (forbidden : List Char) :
    rpg_alphabet (withReduce flags true) forbidden
      = rpg_alphabet (withReduce flags false) ("1Ol|".toList ++ forbidden) := by
  rw [rpg_alphabet_eq, rpg_alphabet_eq, finalAlphabet_withReduce]

/-! ## Lemmas: strings in arrays, and rpg at both ends of a run -/

theorem cstr_holds : ∀ {a : List Cell} {s : List Char}, cstr a = some s → Holds a s := by
  intro a
  induction a with
  | nil => intro s h; simp [cstr] at h
  | cons x a ih =>
    intro s h
    cases x with
    | none => simp [cstr] at h
    | some c =>
      by_cases hc : c = NUL
      · simp only [cstr, hc, if_true, Option.some.injEq] at h
        subst h
        exact ⟨by simp, a, by simp [hc]⟩
      · simp only [cstr, hc, if_false, Option.map_eq_some'] at h
        obtain ⟨s1, h1, rfl⟩ := h
        obtain ⟨hs, r, rfl⟩ := ih h1
        refine ⟨?_, r, by simp⟩
        intro hm
        rcases List.mem_cons.1 hm with h2 | h2
        · exact hc h2.symm
        · exact hs h2

theorem pass_one_traversal (fchar : Char) {a : List Cell} {s : List Char} (h : cstr a = some s) :
    ∃ a1, rpg_pass_loop fchar (s.length + 1) a 0 0 = some a1 ∧ rpg_pass fchar a = some a1 := by
  obtain ⟨hs, r, rfl⟩ := cstr_holds h
  have h1 := pass_loop_cells fchar s (s.length + 1) [] (s.map some ++ some NUL :: r) 0 r hs
    (by simp) (by omega)
  refine ⟨_, by simpa using h1, pass_cells fchar s r hs⟩

theorem nul_not_mem_strOf (l : List Char) : NUL ∉ strOf l := by
  intro h
  have := List.mem_takeWhile_imp h
  simp at this

theorem rpg_zero_eq (flags : Flags) (forbidden : List Char) (g : Rng) :
    rpg 0 flags forbidden g = some ([NUL], g) := by
  obtain ⟨a0, a1, e0, e1, _⟩ := rpg_stages flags forbidden
  simp only [rpg, e0, e1, Option.some_bind, Int.toNat_zero, rpg_fill, List.nil_append]

theorem anyClass_pos (flags : Flags)
    (h : flags.digits = true ∨ flags.lower = true ∨ flags.upper = true ∨
      flags.special = true ∨ flags.more = true) :
    0 < (spec_alphabet flags).length := by
  rw [spec_alphabet_length]
  rcases flags with ⟨_ | _, _ | _, _ | _, _ | _, _ | _, _ | _⟩ <;>
    first | decide | (simp at h)

/-! ## Claims on the run of rpg -/

/-- C15.  For every class selection, forbidden string, length `n >= 0` and source whose
draws lie in [0,1), `rpg` draws exactly `n` values: the source it returns has made `n` more
calls and is otherwise unchanged, and with `n = 0`, where the alphabet is still built and
filtered, it is returned untouched.  The character at position `i` is determined by the
`i`-th draw alone: two sources that agree on their `i`-th draw give the same character at
position `i`, whatever their other draws. -/
theorem rpg_draws_exactly_n (n : Int) (flags : Flags) (forbidden : List Char) (g g2 : Rng)
    (hn : 0 ≤ n) (hg : UnitDraws g) (hg2 : UnitDraws g2) :
    ∃ buff buff2 g1,
      rpg n flags forbidden g = some (buff, g1) ∧
      g1.draws = g.draws ∧ (g1.calls : Int) = g.calls + n ∧
      rpg 0 flags forbidden g = some ([NUL], g) ∧
      rpg n flags forbidden g2 = some (buff2, g2.advance n.toNat) ∧
      ∀ i : Nat, (i : Int) < n →
        g.draws (g.calls + i) = g2.draws (g2.calls + i) → buff[i]? = buff2[i]? := by
  obtain ⟨a0, a1, e0, e1, _, hrun⟩ := rpg_run n flags forbidden g hg
  have hrun2 := rpg_eval n flags forbidden g2 hg2 a0 a1 _ e0 e1
  refine ⟨_, _, _, hrun, rfl, ?_, rpg_zero_eq flags forbidden g, hrun2, ?_⟩
  · show ((g.calls + n.toNat : Nat) : Int) = g.calls + n
    omega
  · intro i hi hdraw
    have hi2 : i < n.toNat := by omega
    have hlen : ∀ F : Nat → Char, i < ((List.range n.toNat).map F).length := by
      intro F
      simpa using hi2
    rw [List.getElem?_append_left (hlen _), List.getElem?_append_left (hlen _),
      List.getElem?_map, List.getElem?_map, List.getElem?_range hi2]
    simp only [Option.map_some', drawIndex, hdraw]

/-- C15, witness: digits only, forbidden "0", three characters, a constant source and a
source given by a list, which agree on their second draw. -/
theorem rpg_draws_exactly_n_witness :
    (0 : Int) ≤ 3 ∧ UnitDraws (constRng (1 / 2)) ∧ UnitDraws (listRng [1 / 4, 1 / 2]) ∧
    ∃ buff buff2 g1,
      rpg 3 digitsOnly "0".toList (constRng (1 / 2)) = some (buff, g1) ∧
      g1.draws = (constRng (1 / 2)).draws ∧ (g1.calls : Int) = (constRng (1 / 2)).calls + 3 ∧
      rpg 0 digitsOnly "0".toList (constRng (1 / 2)) = some ([NUL], constRng (1 / 2)) ∧
      rpg 3 digitsOnly "0".toList (listRng [1 / 4, 1 / 2])
        = some (buff2, (listRng [1 / 4, 1 / 2]).advance (3 : Int).toNat) ∧
      ∀ i : Nat, (i : Int) < 3 →
        (constRng (1 / 2)).draws ((constRng (1 / 2)).calls + i)
          = (listRng [1 / 4, 1 / 2]).draws ((listRng [1 / 4, 1 / 2]).calls + i) →
        buff[i]? = buff2[i]? := by
  have h1 : UnitDraws (constRng (1 / 2)) := unitDraws_const _ (by norm_num) (by norm_num)
  have h2 : UnitDraws (listRng [1 / 4, 1 / 2]) := by
    intro i
    rcases i with _ | _ | i <;> simp [listRng] <;> norm_num
  exact ⟨by decide, h1, h2,
    rpg_draws_exactly_n 3 digitsOnly "0".toList (constRng (1 / 2)) (listRng [1 / 4, 1 / 2])
      (by decide) h1 h2⟩

/-- C16.  For every class selection, every forbidden string, every length `n` and every
sequence of draws in [0,1), `rpg` terminates with a result after `max n 0` calls of
`RandomInt`.  Each removal pass over an array that holds a string `s` ends within
`s.length + 1` reads, one traversal of the string, and each threshold scan of
`RandomInt(0, m)` ends after at most `m` increments of `randInt`. -/
theorem rpg_terminates (n : Int) (flags : Flags) (forbidden : List Char) (g : Rng)
    (hg : UnitDraws g) :
    (∃ buff, rpg n flags forbidden g = some (buff, g.advance n.toNat)) ∧
    (∀ (fchar : Char) (a : List Cell) (s : List Char), cstr a = some s →
      ∃ a1, rpg_pass_loop fchar (s.length + 1) a 0 0 = some a1 ∧ rpg_pass fchar a = some a1) ∧
    (∀ (m : Int) (u : ℚ), 0 ≤ m → m ≤ INT_MAX → 0 ≤ u → u < 1 →
      ∃ k, RandomInt_scan (RandomInt_delta m) u (m.toNat + 1) 1 = some k ∧
        RandomInt_scan (RandomInt_delta m) u INT_MAX.toNat 1 = some k ∧
        1 ≤ k ∧ k - 1 ≤ m) := by
  obtain ⟨a0, a1, _, _, _, hrun⟩ := rpg_run n flags forbidden g hg
  refine ⟨⟨_, hrun⟩, fun fchar a s h => pass_one_traversal fchar h, ?_⟩
  intro m u hm hM hu0 hu1
  have hI : INT_MAX = 2147483647 := rfl
  have hb := floor_bounds m hm u hu0 hu1
  have hle : ⌊u * (m : ℚ)⌋ ≤ m := by
    rcases hb.2 with h | h
    · omega
    · rw [h]; simp
  exact ⟨⌊u * (m : ℚ)⌋ + 1, scan_result m hm u hu0 _ (by omega),
    scan_result m hm u hu0 _ (by omega), by omega, by omega⟩

/-- C16, witness: all classes with reduce-confusion, forbidden "abc", twenty characters,
every draw 2/3. -/
theorem rpg_terminates_witness :
    UnitDraws (constRng (2 / 3)) ∧
    ∃ buff, rpg 20 (allClasses true) "abc".toList (constRng (2 / 3))
      = some (buff, (constRng (2 / 3)).advance (20 : Int).toNat) :=
  ⟨unitDraws_const _ (by norm_num) (by norm_num),
    (rpg_terminates 20 (allClasses true) "abc".toList (constRng (2 / 3))
      (unitDraws_const _ (by norm_num) (by norm_num))).1⟩

/-- C17.  For every class selection, every forbidden string, every `n` and every sequence
of draws in [0,1): after the removal passes every cell of `ascii_chars` from the end of
the filtered alphabet up to the sampling bound `ascii_chars_len` holds the terminator, and
every character that `rpg` stores in `buff` is a member of the final alphabet or the
terminator; none of them is a forbidden character. -/
theorem rpg_writes_alphabet_or_nul (n : Int) (flags : Flags) (forbidden : List Char) (g : Rng)
    (hg : UnitDraws g) :
    ∃ a0 len a1 s buff,
      rpg_classes flags = some (a0, len) ∧ rpg_remove a0 forbidden = some a1 ∧
      cstr a1 = some s ∧
      (∀ j : Nat, s.length ≤ j → (j : Int) ≤ len → load a1 j = some NUL) ∧
      rpg n flags forbidden g = some (buff, g.advance n.toNat) ∧
      ∀ c ∈ buff, (c ∈ s ∨ c = NUL) ∧ c ∉ strOf forbidden := by
  obtain ⟨a0, e0, h0, _⟩ := classes_holds flags
  obtain ⟨a1, e1, h1, t1⟩ := remove_tail forbidden (spec_alphabet flags).length h0
    (spec_alphabet_nodup flags) (holds_nulTail h0)
  obtain ⟨buff, hrun, _, _, hmem⟩ := rpg_stored n flags forbidden g hg
  refine ⟨a0, _, a1, _, buff, e0, e1, h1.cstr_eq, fun j hj1 hj2 => t1 j hj1 (by omega), hrun, ?_⟩
  intro c hc
  refine ⟨hmem c hc, ?_⟩
  rcases hmem c hc with h | h
  · have := (List.mem_filter.1 h).2
    simpa using this
  · rw [h]
    exact nul_not_mem_strOf forbidden

/-- C17, witness: digits only, forbidden "0", five characters, every draw 19/20. -/
theorem rpg_writes_alphabet_or_nul_witness :
    UnitDraws (constRng (19 / 20)) ∧
    ∃ a0 len a1 s buff,
      rpg_classes digitsOnly = some (a0, len) ∧ rpg_remove a0 "0".toList = some a1 ∧
      cstr a1 = some s ∧
      (∀ j : Nat, s.length ≤ j → (j : Int) ≤ len → load a1 j = some NUL) ∧
      rpg 5 digitsOnly "0".toList (constRng (19 / 20))
        = some (buff, (constRng (19 / 20)).advance (5 : Int).toNat) ∧
      ∀ c ∈ buff, (c ∈ s ∨ c = NUL) ∧ c ∉ strOf "0".toList :=
  ⟨unitDraws_const _ (by norm_num) (by norm_num),
    rpg_writes_alphabet_or_nul 5 digitsOnly "0".toList (constRng (19 / 20))
      (unitDraws_const _ (by norm_num) (by norm_num))⟩

/-! ## Claims on the bounds of the working buffer -/

/-- Bounds of the index for every flag record, the one with no class set included: there
`ascii_chars_len` and the index are both 0. -/
theorem index_bounds (flags : Flags) (forbidden : List Char) (g : Rng)
    (h0 : 0 ≤ g.draws g.calls) (h1 : g.draws g.calls < 1) :
    ∃ a0 len a1 idx,
      rpg_classes flags = some (a0, len) ∧ a0.length = 128 ∧
      strlen a0 = some len.toNat ∧ 0 ≤ len ∧ len ≤ 94 ∧
      rpg_remove a0 forbidden = some a1 ∧ a1.length = 128 ∧
      RandomInt 0 len g = some (idx, g.advance 1) ∧
      0 ≤ idx ∧ idx ≤ len ∧
      ((flags.digits = true ∨ flags.lower = true ∨ flags.upper = true ∨
          flags.special = true ∨ flags.more = true) → idx < len) ∧
      idx.toNat < a1.length ∧ (load a1 idx.toNat).isSome := by
  obtain ⟨a0, e0, hh0, l0⟩ := classes_holds flags
  obtain ⟨a1, e1, _, l1, c1⟩ := remove_holds forbidden hh0
  have hlen := spec_alphabet_length_le flags
  have hI : INT_MAX = 2147483647 := rfl
  have hJ : INT_MIN = -2147483648 := rfl
  have hr := RandomInt_floor 0 ((spec_alphabet flags).length : Int) g (by omega) (by omega)
    (by omega) (by omega) h0 h1
  simp only [sub_zero, zero_add] at hr
  have hb := floor_bounds ((spec_alphabet flags).length : Int) (by omega) (g.draws g.calls) h0 h1
  have hle : ⌊g.draws g.calls * (((spec_alphabet flags).length : Int) : ℚ)⌋
      ≤ ((spec_alphabet flags).length : Int) := by
    rcases hb.2 with h | h
    · omega
    · rw [h]; simp
  refine ⟨a0, _, a1, _, e0, l0, ?_, by omega, by omega, e1, by omega, hr, hb.1, hle, ?_,
    by omega, ?_⟩
  · simp only [strlen, hh0.cstr_eq, Option.map_some', Int.toNat_ofNat]
  · intro hany
    have hpos := anyClass_pos flags hany
    rcases hb.2 with h | h
    · exact h
    · omega
  · exact c1 _ (holds_cells hh0 _ (by omega))

/-- C19.  For every class selection, that is every flag record with at least one class set,
with or without reduce-confusion: the characters concatenated into `ascii_chars` number at
most 94, so together with the terminator they fit in the 128 cells of the array, and for
every forbidden string and every draw in [0,1) the index that
`RandomInt(0, ascii_chars_len)` returns satisfies `0 <= idx < ascii_chars_len <= 94`, so
the read `ascii_chars[idx]` is inside the array and finds a written cell. -/
theorem rpg_index_in_buffer (flags : Flags) (forbidden : List Char) (g : Rng)
    (hany : flags.digits = true ∨ flags.lower = true ∨ flags.upper = true ∨
      flags.special = true ∨ flags.more = true)
    (h0 : 0 ≤ g.draws g.calls) (h1 : g.draws g.calls < 1) :
    ∃ a0 len a1 idx,
      rpg_classes flags = some (a0, len) ∧ a0.length = 128 ∧
      strlen a0 = some len.toNat ∧ len.toNat + 1 ≤ a0.length ∧
      rpg_remove a0 forbidden = some a1 ∧ a1.length = 128 ∧
      RandomInt 0 len g = some (idx, g.advance 1) ∧
      0 ≤ idx ∧ idx < len ∧ len ≤ 94 ∧
      idx.toNat < a1.length ∧ (load a1 idx.toNat).isSome := by
  obtain ⟨a0, len, a1, idx, e0, l0, hs, hl0, hl, e1, l1, hr, hi0, _, hlt, hin, hld⟩ :=
    index_bounds flags forbidden g h0 h1
  exact ⟨a0, len, a1, idx, e0, l0, hs, by omega, e1, l1, hr, hi0, hlt hany, hl, hin, hld⟩

/-- C19, witness: the record with no class set after the defaulting step of `main`, the
forbidden string "xyz" and the draw 1/2. -/
theorem rpg_index_in_buffer_witness :
    ((main_defaults noClass).digits = true ∨ (main_defaults noClass).lower = true ∨
      (main_defaults noClass).upper = true ∨ (main_defaults noClass).special = true ∨
      (main_defaults noClass).more = true) ∧
    0 ≤ (constRng (1 / 2)).draws (constRng (1 / 2)).calls ∧
    (constRng (1 / 2)).draws (constRng (1 / 2)).calls < 1 ∧
    ∃ a0 len a1 idx,
      rpg_classes (main_defaults noClass) = some (a0, len) ∧ a0.length = 128 ∧
      strlen a0 = some len.toNat ∧ len.toNat + 1 ≤ a0.length ∧
      rpg_remove a0 "xyz".toList = some a1 ∧ a1.length = 128 ∧
      RandomInt 0 len (constRng (1 / 2)) = some (idx, (constRng (1 / 2)).advance 1) ∧
      0 ≤ idx ∧ idx < len ∧ len ≤ 94 ∧
      idx.toNat < a1.length ∧ (load a1 idx.toNat).isSome := by
  have hany : (main_defaults noClass).digits = true ∨ (main_defaults noClass).lower = true ∨
      (main_defaults noClass).upper = true ∨ (main_defaults noClass).special = true ∨
      (main_defaults noClass).more = true := Or.inl rfl
  have hu0 : 0 ≤ (constRng (1 / 2)).draws (constRng (1 / 2)).calls := by
    show (0 : ℚ) ≤ 1 / 2
    norm_num
  have hu1 : (constRng (1 / 2)).draws (constRng (1 / 2)).calls < 1 := by
    show (1 / 2 : ℚ) < 1
    norm_num
  exact ⟨hany, hu0, hu1,
    rpg_index_in_buffer (main_defaults noClass) "xyz".toList (constRng (1 / 2)) hany hu0 hu1⟩

end Rpg
